import Mathlib

set_option maxRecDepth 20000

/-!
Verification of the codex-sessions repository (Go).

This file shallowly embeds the parts of the source needed by the claims:

* `internal/sessions/loader.go` — timestamp handling, `compactSnippet`,
  the event describer (`describeEntry` and friends), `parseSessionFile`,
  and the merge-by-ID aggregation performed by `Load`;
* the sessions lifecycle file (`DeleteFiles`, `cleanupParentDirectories`)
  over an explicit file-system model;
* `internal/ui/ui.go` — the selection model (`applyFilter`,
  `moveSelectionBy`, `deleteSelected`, query mutations).

Modelling conventions:

* Go strings are modelled as `GoStr := List Char` (one element per rune;
  Go's byte-wise `len`/slicing coincides with this for ASCII data, and
  byte-wise lexicographic order on UTF-8 coincides with code-point order).
* `time.Time` is modelled as `Nat` nanosecond-like instants where `0` is
  Go's zero time; `Before`/`After`/`IsZero` become `<`/`>`/`= 0`.  All
  RFC3339 timestamps (year ≥ 1) are at or after the zero time, so this is
  faithful on the parser's input space.
* JSON decoding is modelled by records that carry the *result* of each
  decode the Go code performs (`Option` = success/failure), since the Go
  code only ever branches on those results.
* File systems are finite sets of files and directories whose paths are
  lists of components (all paths cleaned and absolute, as in the source,
  which calls `filepath.Clean` before walking).
* Go's unstable `sort.Slice`/`sort.Strings` are modelled with
  `List.insertionSort`; every property proved below (membership,
  pairwise ordering, nodup) is invariant under the choice of a
  comparator-respecting sorting algorithm, hence holds of the Go sort
  as well.
-/

/-- Go strings, one entry per rune. -/
abbrev GoStr := List Char

/-- Conversion from Lean string literals into the Go-string model. -/
def strLit (s : String) : GoStr := s.data

/-- Character order used by Go's byte-wise string comparison
(code-point order; identical to UTF-8 byte order). -/
def charLt (a b : Char) : Bool := a.toNat < b.toNat

/-- Strict lexicographic order on Go strings (Go's `<` on `string`). -/
def strLt : GoStr → GoStr → Bool
  | _, [] => false
  | [], _ :: _ => true
  | a :: as, b :: bs => if a = b then strLt as bs else charLt a b

/-- Non-strict lexicographic order (`a <= b` on Go strings),
written as the negation of the mirrored strict order. -/
def strLe (a b : GoStr) : Bool := ! strLt b a

theorem charLt_asymm {a b : Char} (h : charLt a b = true) : charLt b a = false := by
  simp only [charLt, decide_eq_true_eq] at h
  simp only [charLt, decide_eq_false_iff_not]
  omega

theorem charLt_or_eq_or (a b : Char) :
    charLt a b = true ∨ a = b ∨ charLt b a = true := by
  simp only [charLt, decide_eq_true_eq]
  rcases Nat.lt_trichotomy a.toNat b.toNat with h | h | h
  · exact Or.inl h
  · refine Or.inr (Or.inl ?_)
    refine Char.eq_of_val_eq ?_
    have hv : a.val.toNat = b.val.toNat := h
    exact UInt32.ext hv
  · exact Or.inr (Or.inr h)

theorem strLt_irrefl : ∀ s : GoStr, strLt s s = false := by
  intro s
  induction s with
  | nil => rfl
  | cons a as ih => simp [strLt, ih]

theorem strLt_trans : ∀ {a b c : GoStr},
    strLt a b = true → strLt b c = true → strLt a c = true := by
  intro a
  induction a with
  | nil =>
    intro b c hab hbc
    cases b with
    | nil => simp [strLt] at hab
    | cons y ys =>
      cases c with
      | nil => simp [strLt] at hbc
      | cons z zs => simp [strLt]
  | cons x xs ih =>
    intro b c hab hbc
    cases b with
    | nil => simp [strLt] at hab
    | cons y ys =>
      cases c with
      | nil => simp [strLt] at hbc
      | cons z zs =>
        simp only [strLt] at hab hbc ⊢
        by_cases hxy : x = y
        · subst hxy
          simp only [if_pos rfl] at hab
          by_cases hyz : x = z
          · subst hyz
            simp only [if_pos rfl] at hbc ⊢
            exact ih hab hbc
          · simp only [if_neg hyz] at hbc ⊢
            exact hbc
        · simp only [if_neg hxy] at hab
          by_cases hyz : y = z
          · subst hyz
            simp only [if_neg hxy]
            exact hab
          · simp only [if_neg hyz] at hbc
            by_cases hxz : x = z
            · subst hxz
              exfalso
              simp only [charLt, decide_eq_true_eq] at hab hbc
              omega
            · simp only [if_neg hxz]
              simp only [charLt, decide_eq_true_eq] at hab hbc ⊢
              omega

theorem strLt_connex : ∀ {a b : GoStr}, a ≠ b →
    strLt a b = true ∨ strLt b a = true := by
  intro a
  induction a with
  | nil =>
    intro b hne
    cases b with
    | nil => exact absurd rfl hne
    | cons y ys => exact Or.inl (by simp [strLt])
  | cons x xs ih =>
    intro b hne
    cases b with
    | nil => exact Or.inr (by simp [strLt])
    | cons y ys =>
      by_cases hxy : x = y
      · subst hxy
        have hne' : xs ≠ ys := by
          intro h
          exact hne (by rw [h])
        rcases ih hne' with h | h
        · exact Or.inl (by simp [strLt, h])
        · exact Or.inr (by simp [strLt, h])
      · rcases charLt_or_eq_or x y with h | h | h
        · exact Or.inl (by simp [strLt, hxy, h])
        · exact absurd h hxy
        · refine Or.inr ?_
          have hyx : y ≠ x := fun hh => hxy hh.symm
          simp [strLt, hyx, h]

theorem strLt_asymm {a b : GoStr} (h : strLt a b = true) : strLt b a = false := by
  by_contra hc
  have hba : strLt b a = true := by
    cases hh : strLt b a
    · exact absurd hh hc
    · rfl
  have := strLt_trans h hba
  rw [strLt_irrefl] at this
  exact Bool.false_ne_true this

/-- Whitespace test matching `unicode.IsSpace` on the characters the
claims exercise (space, tab, CR, LF). -/
def isSpaceChar (c : Char) : Bool := c = ' ' || c = '\t' || c = '\n' || c = '\r'

/-- `strings.TrimSpace`. -/
def trimStr (s : GoStr) : GoStr :=
  ((s.dropWhile isSpaceChar).reverse.dropWhile isSpaceChar).reverse

/-- Accumulator for `strings.Fields`: `rem` is the unread input, `acc`
holds the current word reversed. -/
def fieldsAux : List Char → List Char → List GoStr
  | [], acc => if acc = [] then [] else [acc.reverse]
  | c :: rest, acc =>
      if isSpaceChar c then
        if acc = [] then fieldsAux rest [] else acc.reverse :: fieldsAux rest []
      else fieldsAux rest (c :: acc)

/-- `strings.Fields`: split around runs of whitespace, no empty words. -/
def goFields (s : GoStr) : List GoStr := fieldsAux s []

/-- `strings.Join(parts, sep)`. -/
def goJoin (sep : GoStr) : List GoStr → GoStr
  | [] => []
  | [w] => w
  | w :: ws => w ++ sep ++ goJoin sep ws

/-- `snippetLimit` from loader.go. -/
def snippetLimit : Nat := 160

/-- `compactSnippet` from loader.go: trim, collapse whitespace runs to
single spaces, cap at `snippetLimit` with a `"..."` marker. -/
def compactSnippet (text : GoStr) : GoStr :=
  let text := trimStr text
  if text = [] then []
  else
    let text := goJoin (strLit " ") (goFields text)
    if text.length ≤ snippetLimit then text
    else if snippetLimit ≤ 3 then text.take snippetLimit
    else text.take (snippetLimit - 3) ++ strLit "..."

/-- `time.Time` model: `0` is Go's zero time; `Before` is `<`. -/
abbrev Time := Nat

/-- `messageContent` from loader.go. -/
structure MessageContent where
  type_ : GoStr
  text : GoStr
deriving DecidableEq, Repr

/-- `responseItemError` from loader.go. -/
structure ResponseItemError where
  message : GoStr
deriving DecidableEq, Repr

/-- The `shell` arguments struct decoded inside `describeFunctionArguments`. -/
structure ShellCallArgs where
  command : List GoStr
  workdir : GoStr
deriving DecidableEq, Repr

/-- The anonymous struct decoded from `payload.Output` inside
`describeFunctionOutput` (`output`, `metadata.exit_code`, `error`). -/
structure FunctionOutput where
  output : GoStr
  exitCode : Option Int
  error : GoStr
deriving DecidableEq, Repr

/-- `responseItemPayload` from loader.go (fields the describer reads).
`argumentsShell` and `outputParsed` carry the results of the nested
`json.Unmarshal` calls the Go code performs on the `arguments` and
`output` strings (`none` = that decode fails). -/
structure ResponseItemPayload where
  type_ : GoStr
  role : GoStr
  content : List MessageContent
  name : GoStr
  arguments : GoStr
  argumentsShell : Option ShellCallArgs
  output : GoStr
  outputParsed : Option FunctionOutput
  summary : List MessageContent
  error : Option ResponseItemError
  title : GoStr
deriving DecidableEq, Repr

/-- `eventMsgPayload` from loader.go (fields the describer reads). -/
structure EventMsgPayload where
  type_ : GoStr
  message : GoStr
  text : GoStr
deriving DecidableEq, Repr

/-- `sessionMetaPayload` from loader.go; `timestamp` is the result of
`parseTimestamp(payload.Timestamp)` (`none` = empty or unparseable). -/
structure SessionMetaPayload where
  id : GoStr
  timestamp : Option Time
  cwd : GoStr
deriving DecidableEq, Repr

/-- One decoded `logEntry`.  `ts` is the result of
`parseTimestamp(entry.Timestamp)`.  The three payload fields carry the
outcome of decoding the raw `payload` JSON against each schema the Go
code may apply to it (`none` = that decode fails). -/
structure LogEntry where
  ts : Option Time
  type_ : GoStr
  metaPayload : Option SessionMetaPayload
  respPayload : Option ResponseItemPayload
  eventPayload : Option EventMsgPayload
deriving DecidableEq, Repr

/-- One non-blank line of a session file: either it fails
`json.Unmarshal` into `logEntry`, or it exceeds the 16 MiB line limit,
or it decodes into an entry. -/
inductive LogLine where
  | malformed
  | oversized
  | entry (e : LogEntry)
deriving DecidableEq, Repr

/-- `firstNonEmptyText` from loader.go. -/
def firstNonEmptyText : List MessageContent → GoStr
  | [] => []
  | item :: rest =>
      if trimStr item.text ≠ [] then item.text else firstNonEmptyText rest

/-- `describeFunctionArguments` from loader.go. -/
def describeFunctionArguments (name argsJSON : GoStr)
    (shellDecode : Option ShellCallArgs) : GoStr :=
  if argsJSON = [] then []
  else if name = strLit "shell" then
    match shellDecode with
    | none => []
    | some call =>
        if call.command = [] then []
        else compactSnippet (goJoin (strLit " ") call.command)
  else []

/-- `describeFunctionOutput` from loader.go. -/
def describeFunctionOutput (p : ResponseItemPayload) : GoStr :=
  if p.output = [] then
    match p.error with
    | some er =>
        if er.message ≠ [] then
          strLit "call " ++ p.name ++ strLit " error: " ++ compactSnippet er.message
        else strLit "call " ++ p.name ++ strLit " completed"
    | none => strLit "call " ++ p.name ++ strLit " completed"
  else
    match p.outputParsed with
    | none => strLit "call " ++ p.name ++ strLit " output"
    | some out =>
        if out.error ≠ [] then
          strLit "call " ++ p.name ++ strLit " error: " ++ compactSnippet out.error
        else
          match out.exitCode with
          | some ec =>
              let snippet := compactSnippet out.output
              if snippet ≠ [] then
                strLit "call " ++ p.name ++ strLit " exit " ++ strLit (toString ec) ++
                  strLit ": " ++ snippet
              else strLit "call " ++ p.name ++ strLit " exit " ++ strLit (toString ec)
          | none =>
              if out.output = [] then strLit "call " ++ p.name ++ strLit " completed"
              else strLit "call " ++ p.name ++ strLit ": " ++ compactSnippet out.output

/-- `describeResponseItem` from loader.go (after a successful payload
decode; a failed decode yields `""` at the `describeEntry` level). -/
def describeResponseItem (p : ResponseItemPayload) : GoStr :=
  if p.type_ = strLit "message" then
    let text := firstNonEmptyText p.content
    let text := if text = [] then firstNonEmptyText p.summary else text
    let text := if text = [] ∧ p.title ≠ [] then p.title else text
    if text = [] then []
    else
      let pre := trimStr p.role
      if pre ≠ [] then pre ++ strLit ": " ++ compactSnippet text
      else compactSnippet text
  else if p.type_ = strLit "reasoning" then
    let text := firstNonEmptyText p.summary
    let text := if text = [] then firstNonEmptyText p.content else text
    if text = [] then []
    else strLit "reasoning: " ++ compactSnippet text
  else if p.type_ = strLit "function_call" then
    let desc := strLit "call " ++ p.name
    let args := describeFunctionArguments p.name p.arguments p.argumentsShell
    if args ≠ [] then desc ++ strLit " " ++ args else desc
  else if p.type_ = strLit "function_call_output" then
    describeFunctionOutput p
  else
    if p.title ≠ [] then compactSnippet p.title else []

/-- `describeEventMessage` from loader.go (after a successful decode).
A `case` whose guard fails falls through to the trailing
`payload.Message` test, exactly as the Go `switch` does. -/
def describeEventMessage (p : EventMsgPayload) : GoStr :=
  if p.type_ = strLit "user_message" ∨ p.type_ = strLit "assistant_message" ∨
      p.type_ = strLit "system_message" then
    let text := if p.message = [] then p.text else p.message
    if text = [] then []
    else p.type_ ++ strLit ": " ++ compactSnippet text
  else if p.type_ = strLit "tool_progress" ∧ p.message ≠ [] then
    strLit "tool progress: " ++ compactSnippet p.message
  else if p.type_ = strLit "token_count" then
    strLit "token usage updated"
  else if p.type_ = strLit "command_output" ∧ p.message ≠ [] then
    strLit "command output: " ++ compactSnippet p.message
  else if p.message ≠ [] then
    p.type_ ++ strLit ": " ++ compactSnippet p.message
  else p.type_

/-- `describeEntry` from loader.go.  A payload that fails to decode
degrades to the empty (not-describable) string. -/
def describeEntry (e : LogEntry) : GoStr :=
  if e.type_ = strLit "response_item" then
    match e.respPayload with
    | none => []
    | some p => describeResponseItem p
  else if e.type_ = strLit "event_msg" then
    match e.eventPayload with
    | none => []
    | some p => describeEventMessage p
  else []

/-- `Session` from the sessions package. -/
structure Session where
  ID : GoStr
  CreatedAt : Time
  UpdatedAt : Time
  WorkingDir : GoStr
  LastAction : GoStr
  FilePaths : List GoStr
deriving DecidableEq, Repr

instance : Inhabited Session := ⟨⟨[], 0, 0, [], [], []⟩⟩

/-- Parse failures of `parseSessionFile`. -/
inductive ParseError where
  | openFailed
  | lineTooLong
  | decodeEntry
  | decodeMeta
  | missingID
deriving DecidableEq, Repr

/-- Contents of one file: either `os.Open` fails or we get its
non-blank lines in order. -/
inductive FileContent where
  | openFail
  | lines (ls : List LogLine)
deriving DecidableEq, Repr

/-- The loop state of `parseSessionFile`: the session fields built so
far plus the `createdSet` and `lastTS` locals. -/
structure ParseState where
  id : GoStr
  cwd : GoStr
  createdAt : Time
  createdSet : Bool
  lastAction : GoStr
  lastTS : Time
deriving DecidableEq, Repr

/-- Initial `ParseState` (zero `Session` plus zero locals). -/
def initParseState : ParseState := ⟨[], [], 0, false, [], 0⟩

/-- The `session_meta` arm of the switch in `parseSessionFile`:
unconditionally overwrite `id` and `cwd`; seed `CreatedAt` only when the
metadata timestamp parses. -/
def metaStep (st : ParseState) (e : LogEntry) : Except ParseError ParseState :=
  if e.type_ = strLit "session_meta" then
    match e.metaPayload with
    | none => .error .decodeMeta
    | some p =>
        match p.timestamp with
        | some t => .ok { st with id := p.id, cwd := p.cwd, createdAt := t, createdSet := true }
        | none => .ok { st with id := p.id, cwd := p.cwd }
  else .ok st

/-- The clock/describe part of the loop body: advance `lastTS` and
refresh `lastAction` when this entry's timestamp is the newest seen (or
the first seen). -/
def tsStep (st : ParseState) (e : LogEntry) : ParseState :=
  let tsv := e.ts.getD 0
  if tsv > st.lastTS ∨ st.lastTS = 0 then
    let st := { st with lastTS := tsv }
    let d := describeEntry e
    if d ≠ [] then { st with lastAction := d }
    else if e.type_ = strLit "session_meta" ∧ st.lastAction = [] then
      { st with lastAction := strLit "session started" }
    else st
  else st

/-- One iteration of the read loop of `parseSessionFile`. -/
def parseStep (st : ParseState) (l : LogLine) : Except ParseError ParseState :=
  match l with
  | .malformed => .error .decodeEntry
  | .oversized => .error .lineTooLong
  | .entry e =>
      match metaStep st e with
      | .error er => .error er
      | .ok st1 => .ok (tsStep st1 e)

/-- The read loop of `parseSessionFile` over all non-blank lines. -/
def parseLines (st : ParseState) : List LogLine → Except ParseError ParseState
  | [] => .ok st
  | l :: ls =>
      match parseStep st l with
      | .error e => .error e
      | .ok st1 => parseLines st1 ls

/-- `parseSessionFile` from loader.go. -/
def parseSessionFile (path : GoStr) (content : FileContent) : Except ParseError Session :=
  match content with
  | .openFail => .error .openFailed
  | .lines ls =>
      match parseLines initParseState ls with
      | .error e => .error e
      | .ok st =>
          if st.id = [] then .error .missingID
          else
            .ok { ID := st.id
                  CreatedAt := if ¬ st.createdSet ∨ st.createdAt = 0 then st.lastTS else st.createdAt
                  UpdatedAt := st.lastTS
                  WorkingDir := st.cwd
                  LastAction := st.lastAction
                  FilePaths := [path] }

/-- `contains`-guarded `FilePaths` union from the merge loop in `Load`
(lines 84-88 of loader.go). -/
def appendMissing (acc : List GoStr) (new : List GoStr) : List GoStr :=
  new.foldl (fun acc fp => if fp ∈ acc then acc else acc ++ [fp]) acc

/-- The merge of a newly parsed fragment into the session of record
(lines 70-88 of loader.go). -/
def mergeInto (existing session : Session) : Session :=
  let e1 :=
    if session.CreatedAt < existing.CreatedAt ∨ existing.CreatedAt = 0 then
      { existing with CreatedAt := session.CreatedAt }
    else existing
  let e2 :=
    if e1.UpdatedAt < session.UpdatedAt then
      { e1 with UpdatedAt := session.UpdatedAt
                LastAction := session.LastAction
                WorkingDir := if session.WorkingDir ≠ [] then session.WorkingDir else e1.WorkingDir }
    else if e1.WorkingDir = [] ∧ session.WorkingDir ≠ [] then
      { e1 with WorkingDir := session.WorkingDir }
    else e1
  { e2 with FilePaths := appendMissing e2.FilePaths session.FilePaths }

/-- The per-session finalisation before emission: `sort.Strings` on
`FilePaths` (line 99 of loader.go). -/
def finalizeSession (s : Session) : Session :=
  { s with FilePaths := List.insertionSort (fun a b => strLe a b = true) s.FilePaths }

/-- `filepath.Ext`: the suffix starting at the last dot of the last
path element (empty when that element has no dot). -/
def goExt (p : GoStr) : GoStr :=
  let seg := p.reverse.takeWhile (fun c => c ≠ '/')
  let pre := seg.takeWhile (fun c => c ≠ '.')
  if pre.length = seg.length then [] else (pre ++ ['.']).reverse

/-- Errors accumulated by `Load` into its combined non-fatal error. -/
inductive LoadErr where
  | parseErr (path : GoStr) (e : ParseError)
deriving DecidableEq, Repr

/-- Content of the `byID` map, as an association list in first-occurrence
order (the map's contents are deterministic; only Go's iteration order is
not, and no claim depends on it). -/
def upsert (acc : List (GoStr × Session)) (s : Session) : List (GoStr × Session) :=
  match acc with
  | [] => [(s.ID, s)]
  | (k, ex) :: rest =>
      if k = s.ID then (k, mergeInto ex s) :: rest else (k, ex) :: upsert rest s

/-- Session-map update for one walked file (the walk callback of `Load`,
ignoring directories, non-`.jsonl` files and parse failures). -/
def sessStep (acc : List (GoStr × Session)) (pc : GoStr × FileContent) :
    List (GoStr × Session) :=
  if goExt pc.1 = strLit ".jsonl" then
    match parseSessionFile pc.1 pc.2 with
    | .ok s => upsert acc s
    | .error _ => acc
  else acc

/-- The aggregated `byID` contents after walking `files` (paths in walk
order, each with its contents), `FilePaths` sorted as at emission. -/
def aggSessions (files : List (GoStr × FileContent)) : List (GoStr × Session) :=
  (files.foldl sessStep []).map (fun kv => (kv.1, finalizeSession kv.2))

/-- Error accumulation for one walked file. -/
def errStep (errs : List LoadErr) (pc : GoStr × FileContent) : List LoadErr :=
  if goExt pc.1 = strLit ".jsonl" then
    match parseSessionFile pc.1 pc.2 with
    | .error e => errs ++ [LoadErr.parseErr pc.1 e]
    | .ok _ => errs
  else errs

/-- The combined non-fatal error of `Load`, as the list of joined errors
in walk order. -/
def aggErrors (files : List (GoStr × FileContent)) : List LoadErr :=
  files.foldl errStep []

/-- A cleaned absolute path, as its list of components (`[]` is `/`).
`filepath.Dir` is `dropLast`; for two such paths `filepath.Rel(stop, dir)`
starts with `".."` exactly when `stop` is not a component-wise
initial segment of `dir`. -/
abbrev FsPath := List String

/-- The file-system model: the set of existing files and directories. -/
structure FS where
  files : List FsPath
  dirs : List FsPath
deriving DecidableEq, Repr

/-- `q` lies strictly inside the subtree of `d`. -/
def strictlyUnder (d q : FsPath) : Bool := d.isPrefixOf q && decide (d ≠ q)

/-- A directory is empty when nothing lives strictly under it. -/
def dirEmpty (fs : FS) (d : FsPath) : Bool :=
  fs.files.all (fun q => ! strictlyUnder d q) && fs.dirs.all (fun q => ! strictlyUnder d q)

/-- Outcomes of `os.Remove`. -/
inductive RemoveOutcome where
  | ok (fs : FS)
  | notExist
  | failed
deriving Repr

/-- `os.Remove`: removes a file, or an empty directory; `notExist` when
the path names nothing, `failed` when a directory is non-empty. -/
def goRemove (fs : FS) (p : FsPath) : RemoveOutcome :=
  if p ∈ fs.files then .ok { fs with files := fs.files.erase p }
  else if p ∈ fs.dirs then
    if dirEmpty fs p then .ok { fs with dirs := fs.dirs.erase p } else .failed
  else .notExist

/-- The loop of `cleanupParentDirectories`, with explicit fuel (the loop
strips one component per iteration, so `dir.length` fuel suffices).
`stop = []` models the empty `sessionsRoot`, for which the Go code's
`filepath.Rel(Clean(""), dir)` errors on the first iteration and the
loop removes nothing. -/
def cleanupAux : Nat → FS → FsPath → FsPath → FS
  | 0, fs, _, _ => fs
  | _ + 1, fs, [], _ => fs
  | fuel + 1, fs, dir, stop =>
      if stop = [] then fs
      else if ¬ (stop.isPrefixOf dir) then fs
      else
        match goRemove fs dir with
        | .ok fs1 => if dir = stop then fs1 else cleanupAux fuel fs1 dir.dropLast stop
        | _ => fs

/-- `cleanupParentDirectories(start, stop)`. -/
def cleanupParentDirectories (fs : FS) (start stop : FsPath) : FS :=
  cleanupAux start.length fs start stop

/-- `DeleteFiles(sess, sessionsRoot)`: remove every backing path, ignore
not-found, collect other failures, and best-effort prune parents after
each removal attempt that was not a hard failure. -/
def DeleteFiles (fs : FS) (paths : List FsPath) (root : FsPath) : FS × List FsPath :=
  paths.foldl
    (fun acc path =>
      match goRemove acc.1 path with
      | .ok fs1 => (cleanupParentDirectories fs1 path.dropLast root, acc.2)
      | .notExist => (cleanupParentDirectories acc.1 path.dropLast root, acc.2)
      | .failed => (acc.1, acc.2 ++ [path]))
    (fs, [])

/-- Rune-wise lower-casing (`strings.ToLower` / the library's case fold). -/
def toLowerStr (s : GoStr) : GoStr := s.map Char.toLower

/-- Case-sensitive fuzzy (subsequence) match. -/
def isSubseq : GoStr → GoStr → Bool
  | [], _ => true
  | _ :: _, [] => false
  | q :: qs, k :: ks => if q = k then isSubseq qs ks else isSubseq (q :: qs) ks

/-- Modelled from the spec: the external fuzzy-match library
(`fuzzy.RankFindFold`) is not part of this repository; per the spec it
performs a "fuzzy substring-style match (case-insensitive)" — a
case-folded subsequence match. -/
def fuzzyMatchFold (q k : GoStr) : Bool := isSubseq (toLowerStr q) (toLowerStr k)

/-- Levenshtein distance with structural fuel (fuel `≥ |xs| + |ys|`
always suffices). -/
def levFuel : Nat → GoStr → GoStr → Nat
  | 0, xs, ys => xs.length + ys.length
  | fuel + 1, xs, ys =>
      match xs, ys with
      | [], ys => ys.length
      | xs, [] => xs.length
      | x :: xs1, y :: ys1 =>
          if x = y then levFuel fuel xs1 ys1
          else 1 + min (levFuel fuel xs1 ys1)
                   (min (levFuel fuel (x :: xs1) ys1) (levFuel fuel xs1 (y :: ys1)))

/-- Modelled from the spec: the match distance the external library
attaches to each surviving row ("producing a distance/score per
surviving row"); concretely the edit distance of the folded strings. -/
def levDist (xs ys : GoStr) : Nat := levFuel (xs.length + ys.length) xs ys

/-- One entry of the library's rank list: the match distance and the
index of the matched key in the input slice. -/
structure Rank where
  distance : Nat
  originalIndex : Nat
deriving DecidableEq, Repr

/-- Modelled from the spec: `fuzzy.RankFindFold(query, keys)` — one
`Rank` per key that matches, `originalIndex` being the key's position. -/
def rawRanks (q : GoStr) : List GoStr → Nat → List Rank
  | [], _ => []
  | k :: ks, n =>
      if fuzzyMatchFold q k then
        ⟨levDist (toLowerStr q) (toLowerStr k), n⟩ :: rawRanks q ks (n + 1)
      else rawRanks q ks (n + 1)

/-- `row` from ui.go. -/
structure Row where
  session : Session
  searchKey : GoStr
deriving DecidableEq, Repr

instance : Inhabited Row := ⟨⟨default, []⟩⟩

/-- The comparator passed to `sort.Slice` in `applyFilter`: ascending
distance, ties by descending `UpdatedAt`, remaining ties by ascending
`ID`. -/
def rankLess (entries : List Row) (a b : Rank) : Bool :=
  if a.distance = b.distance then
    let sa := (entries.getD a.originalIndex default).session
    let sb := (entries.getD b.originalIndex default).session
    if sa.UpdatedAt = sb.UpdatedAt then strLt sa.ID sb.ID
    else decide (sb.UpdatedAt < sa.UpdatedAt)
  else decide (a.distance < b.distance)

/-- The reflexive total companion of `rankLess` used to run the sort. -/
def rankLe (entries : List Row) (a b : Rank) : Bool := ! rankLess entries b a

/-- The ranked branch of `applyFilter`: rank the matching keys, sort by
the comparator, and keep the original indices. -/
def computeRanked (q : GoStr) (entries : List Row) : List Nat :=
  (List.insertionSort (fun a b => rankLe entries a b = true)
      (rawRanks q (entries.map (fun r => r.searchKey)) 0)).map
    (fun r => r.originalIndex)

/-- The filtered index list `applyFilter` computes: all indices in
original order for an empty (post-trim) query, the ranked matches
otherwise. -/
def computeFiltered (query : GoStr) (entries : List Row) : List Nat :=
  let q := trimStr query
  if q = [] then List.range entries.length else computeRanked q entries

/-- `model` from ui.go (the presentation widget handles are outside the
core; `status` is the status line text). -/
structure UIModel where
  entries : List Row
  filtered : List Nat
  selected : Int
  pageSize : Int
  query : GoStr
  status : GoStr
deriving DecidableEq, Repr

/-- `applyFilter` from ui.go. -/
def applyFilter (m : UIModel) : UIModel :=
  if m.entries.length = 0 then { m with filtered := [], selected := 0 }
  else
    let f := computeFiltered m.query m.entries
    if f.length = 0 then { m with filtered := f, selected := 0 }
    else
      let sel := if m.selected ≥ (f.length : Int) then (f.length : Int) - 1 else m.selected
      let sel := if sel < 0 then 0 else sel
      { m with filtered := f, selected := sel }

/-- `moveSelectionBy` from ui.go. -/
def moveSelectionBy (delta : Int) (m : UIModel) : UIModel :=
  if m.filtered = [] then m
  else
    let next := m.selected + delta
    let next :=
      if next < 0 then 0
      else if next ≥ (m.filtered.length : Int) then (m.filtered.length : Int) - 1
      else next
    { m with selected := next }

/-- `dropLastRune` from ui.go. -/
def dropLastRune (v : GoStr) : GoStr :=
  if v = [] then [] else if v.length ≤ 1 then [] else v.dropLast

/-- The `KeyRune` transition: append the typed rune and re-filter. -/
def appendChar (c : Char) (m : UIModel) : UIModel :=
  applyFilter { m with query := m.query ++ [c] }

/-- The `KeyBackspace` transition. -/
def backspaceOp (m : UIModel) : UIModel :=
  if m.query ≠ [] then applyFilter { m with query := dropLastRune m.query } else m

/-- The `KeyEsc` transition restricted to its state mutation (when the
query is already empty the key only signals exit). -/
def clearOp (m : UIModel) : UIModel :=
  if m.query ≠ [] then applyFilter { m with query := [] } else m

/-- `deleteSelected` from ui.go.  `err` is the outcome of the
`sessions.DeleteFiles` call (`none` = success). -/
def deleteSelected (err : Option GoStr) (m : UIModel) : UIModel :=
  if m.filtered = [] then { m with status := strLit "Nothing to delete" }
  else
    let idx := m.filtered.getD m.selected.toNat 0
    let sess := (m.entries.getD idx default).session
    match err with
    | some e => { m with status := strLit "Delete failed: " ++ e }
    | none =>
        applyFilter { m with entries := m.entries.eraseIdx idx
                             status := strLit "Session " ++ sess.ID ++ strLit " deleted" }

/-- The selection-cursor invariant of the claims: `selected` is `0` when
`filtered` is empty and lies in `[0, len(filtered)-1]` otherwise. -/
def cursorInv (m : UIModel) : Prop :=
  (m.filtered = [] ∧ m.selected = 0) ∨
  (m.filtered ≠ [] ∧ 0 ≤ m.selected ∧ m.selected < (m.filtered.length : Int))

instance (m : UIModel) : Decidable (cursorInv m) := by
  unfold cursorInv
  infer_instance

theorem dropWhile_eq_self_of_all {p : Char → Bool} (l : List Char)
    (h : ∀ c ∈ l, p c = false) : l.dropWhile p = l := by
  cases l with
  | nil => rfl
  | cons c cs =>
    have hc : p c = false := h c (List.mem_cons_self c cs)
    simp [List.dropWhile_cons, hc]

theorem trimStr_of_nospace (s : GoStr) (h : ∀ c ∈ s, isSpaceChar c = false) :
    trimStr s = s := by
  unfold trimStr
  rw [dropWhile_eq_self_of_all s h]
  rw [dropWhile_eq_self_of_all s.reverse (fun c hc => h c (List.mem_reverse.mp hc))]
  exact List.reverse_reverse s

theorem fieldsAux_of_nospace (l : List Char) (h : ∀ c ∈ l, isSpaceChar c = false) :
    ∀ acc : List Char, fieldsAux l acc =
      if acc.reverse ++ l = [] then [] else [acc.reverse ++ l] := by
  induction l with
  | nil =>
    intro acc
    simp only [fieldsAux, List.append_nil]
    by_cases hacc : acc = []
    · subst hacc
      simp
    · have : acc.reverse ≠ [] := by simpa using hacc
      simp [hacc, this]
  | cons c cs ih =>
    intro acc
    have hc : isSpaceChar c = false := h c (List.mem_cons_self c cs)
    have hcs : ∀ x ∈ cs, isSpaceChar x = false := fun x hx => h x (List.mem_cons_of_mem c hx)
    simp only [fieldsAux, hc, Bool.false_eq_true, if_false]
    rw [ih hcs (c :: acc)]
    have hrw : (c :: acc).reverse ++ cs = acc.reverse ++ (c :: cs) := by
      simp
    rw [hrw]

theorem goFields_of_nospace (s : GoStr) (hne : s ≠ [])
    (h : ∀ c ∈ s, isSpaceChar c = false) : goFields s = [s] := by
  unfold goFields
  rw [fieldsAux_of_nospace s h []]
  simp [hne]

theorem compactSnippet_of_nospace (s : GoStr) (hne : s ≠ [])
    (h : ∀ c ∈ s, isSpaceChar c = false) :
    compactSnippet s =
      if s.length ≤ snippetLimit then s
      else s.take (snippetLimit - 3) ++ strLit "..." := by
  unfold compactSnippet
  rw [trimStr_of_nospace s h]
  rw [if_neg hne]
  rw [goFields_of_nospace s hne h]
  have hjoin : goJoin (strLit " ") [s] = s := rfl
  rw [hjoin]
  by_cases hlen : s.length ≤ snippetLimit
  · simp [hlen]
  · have h3 : ¬ (snippetLimit ≤ 3) := by decide
    simp [hlen, h3]

/-- **C7** (amended).  `compactSnippet` always caps its output at 160
characters; a whitespace-free 200-character input yields `take 157 s`
followed by the three-character `"..."` marker — 160 characters in all —
and a whitespace-free 50-character input is returned unchanged.
(The sub-claim that *every* 50-character input is returned unchanged is
refuted by `c7_counterexample`: inputs containing whitespace are
trimmed/collapsed first.) -/
theorem c7_snippet_cap :
    (∀ s : GoStr, (compactSnippet s).length ≤ snippetLimit) ∧
    (∀ s : GoStr, (∀ c ∈ s, isSpaceChar c = false) → s.length = 200 →
        compactSnippet s = s.take 157 ++ strLit "..." ∧
        (compactSnippet s).length = 160) ∧
    (∀ s : GoStr, (∀ c ∈ s, isSpaceChar c = false) → s.length = 50 →
        compactSnippet s = s) := by
  refine ⟨?_, ?_, ?_⟩
  · intro s
    unfold compactSnippet
    set t := trimStr s with ht
    by_cases h0 : t = []
    · simp [h0, snippetLimit]
    · simp only [h0, if_false]
      set u := goJoin (strLit " ") (goFields t) with hu
      by_cases h1 : u.length ≤ snippetLimit
      · simp [h1]
      · have h3 : ¬ (snippetLimit ≤ 3) := by decide
        simp only [h1, if_false, h3]
        have : (u.take (snippetLimit - 3)).length ≤ snippetLimit - 3 :=
          List.length_take_le (snippetLimit - 3) u
        have hdots : (strLit "...").length = 3 := by decide
        rw [List.length_append, hdots]
        omega
  · intro s hsp hlen
    have hne : s ≠ [] := by
      intro h
      rw [h] at hlen
      simp at hlen
    rw [compactSnippet_of_nospace s hne hsp]
    have : ¬ (s.length ≤ snippetLimit) := by
      rw [hlen]
      decide
    rw [if_neg this]
    constructor
    · rfl
    · have htake : (s.take (snippetLimit - 3)).length = 157 := by
        rw [List.length_take]
        rw [hlen]
        decide
      rw [List.length_append, htake]
      decide
  · intro s hsp hlen
    have hne : s ≠ [] := by
      intro h
      rw [h] at hlen
      simp at hlen
    rw [compactSnippet_of_nospace s hne hsp]
    have : s.length ≤ snippetLimit := by
      rw [hlen]
      decide
    rw [if_pos this]

/-- Witness for `c7_snippet_cap` at the claim's concrete inputs. -/
theorem c7_snippet_cap_witness :
    compactSnippet (List.replicate 200 'a') =
        (List.replicate 200 'a' : GoStr).take 157 ++ strLit "..." ∧
      compactSnippet (List.replicate 50 'b') = List.replicate 50 'b' :=
  ⟨(c7_snippet_cap.2.1 (List.replicate 200 'a')
      (by decide) (by decide)).1,
    c7_snippet_cap.2.2 (List.replicate 50 'b') (by decide) (by decide)⟩

/-- **C7** counterexample: a 50-character input consisting of spaces is
*not* returned unchanged (it collapses to the empty snippet), refuting
the unqualified "a 50-character input is returned unchanged". -/
theorem c7_counterexample :
    (List.replicate 50 ' ' : GoStr).length = 50 ∧
      compactSnippet (List.replicate 50 ' ') ≠ List.replicate 50 ' ' := by
  decide

/-- A fragment whose metadata timestamp parses (CreatedAt 100). -/
def c3File1 : List LogLine :=
  [.entry ⟨some 100, strLit "session_meta",
      some ⟨strLit "a", some 100, strLit "w1"⟩, none, none⟩]

/-- A same-ID fragment with no parseable timestamp at all, so its parsed
`CreatedAt` is the zero time. -/
def c3File2 : List LogLine :=
  [.entry ⟨none, strLit "session_meta",
      some ⟨strLit "a", none, strLit "w2"⟩, none, none⟩]

/-- **C3** (code bug, evaluated).  Merging a second fragment whose
`CreatedAt` is zero into a record whose `CreatedAt` is 100 zeroes the
merged `CreatedAt`: the zero time is `Before` every non-zero time, so
the guard on line 71 of loader.go fires.  The claim (and the spec's
"earlier non-zero value") says the merged value should stay 100. -/
theorem c3_zero_created_overwrites :
    parseSessionFile (strLit "p1.jsonl") (.lines c3File1) =
        .ok ⟨strLit "a", 100, 100, strLit "w1", strLit "session started",
          [strLit "p1.jsonl"]⟩ ∧
      parseSessionFile (strLit "p2.jsonl") (.lines c3File2) =
        .ok ⟨strLit "a", 0, 0, strLit "w2", strLit "session started",
          [strLit "p2.jsonl"]⟩ ∧
      (aggSessions [(strLit "p1.jsonl", .lines c3File1),
          (strLit "p2.jsonl", .lines c3File2)]).map
        (fun kv => (kv.2.ID, kv.2.CreatedAt)) = [(strLit "a", 0)] :=
  ⟨rfl, rfl, rfl⟩

theorem goRemove_ok_dirs {fs fs1 : FS} {p d : FsPath}
    (h : goRemove fs p = .ok fs1) (hd : d ∈ fs.dirs) (hne : d ≠ p) :
    d ∈ fs1.dirs := by
  unfold goRemove at h
  by_cases hf : p ∈ fs.files
  · simp only [hf, if_true] at h
    cases h
    exact hd
  · simp only [hf, if_false] at h
    by_cases hdir : p ∈ fs.dirs
    · simp only [hdir, if_true] at h
      by_cases hemp : dirEmpty fs p = true
      · simp only [hemp, if_true] at h
        cases h
        exact (List.mem_erase_of_ne hne).mpr hd
      · simp [hemp] at h
    · simp [hdir] at h

theorem cleanupAux_preserves (fuel : Nat) :
    ∀ (fs : FS) (dir stop d : FsPath), d ∈ fs.dirs →
      stop.isPrefixOf d = false → d ∈ (cleanupAux fuel fs dir stop).dirs := by
  induction fuel with
  | zero =>
    intro fs dir stop d hd _
    exact hd
  | succ fuel ih =>
    intro fs dir stop d hd hnp
    cases dir with
    | nil => exact hd
    | cons c cs =>
      unfold cleanupAux
      by_cases hstop : stop = []
      · rw [if_pos hstop]
        exact hd
      · rw [if_neg hstop]
        by_cases hpre : stop.isPrefixOf (c :: cs) = true
        · rw [if_neg (not_not_intro hpre)]
          cases hrem : goRemove fs (c :: cs) with
          | ok fs1 =>
            have hned : d ≠ c :: cs := by
              intro hh
              rw [hh, hpre] at hnp
              exact Bool.noConfusion hnp
            have hd1 : d ∈ fs1.dirs := goRemove_ok_dirs hrem hd hned
            dsimp only
            by_cases heq : c :: cs = stop
            · rw [if_pos heq]
              exact hd1
            · rw [if_neg heq]
              exact ih fs1 (c :: cs).dropLast stop d hd1 hnp
          | notExist => exact hd
          | failed => exact hd
        · rw [if_pos hpre]
          exact hd

theorem deleteFiles_step_preserves {fs fs' : FS} {path root d : FsPath}
    (hd : d ∈ fs.dirs) (hnp : root.isPrefixOf d = false) (hne : d ≠ path)
    (h : (match goRemove fs path with
          | .ok fs1 => cleanupParentDirectories fs1 path.dropLast root
          | .notExist => cleanupParentDirectories fs path.dropLast root
          | .failed => fs) = fs') :
    d ∈ fs'.dirs := by
  cases hrem : goRemove fs path with
  | ok fs1 =>
    rw [hrem] at h
    subst h
    exact cleanupAux_preserves _ fs1 path.dropLast root d
      (goRemove_ok_dirs hrem hd hne) hnp
  | notExist =>
    rw [hrem] at h
    subst h
    exact cleanupAux_preserves _ fs path.dropLast root d hd hnp
  | failed =>
    rw [hrem] at h
    subst h
    exact hd

theorem deleteFiles_fold_preserves (paths : List FsPath) :
    ∀ (fs : FS) (errs : List FsPath) (root d : FsPath), d ∈ fs.dirs →
      d ∉ paths → root.isPrefixOf d = false →
      d ∈ (paths.foldl
        (fun acc path =>
          match goRemove acc.1 path with
          | .ok fs1 => (cleanupParentDirectories fs1 path.dropLast root, acc.2)
          | .notExist => (cleanupParentDirectories acc.1 path.dropLast root, acc.2)
          | .failed => (acc.1, acc.2 ++ [path])) (fs, errs)).1.dirs := by
  induction paths with
  | nil =>
    intro fs errs root d hd _ _
    exact hd
  | cons p ps ih =>
    intro fs errs root d hd hdp hnp
    have hne : d ≠ p := fun hh => hdp (hh ▸ List.mem_cons_self p ps)
    have hdp' : d ∉ ps := fun hh => hdp (List.mem_cons_of_mem p hh)
    simp only [List.foldl_cons]
    cases hrem : goRemove fs p with
    | ok fs1 =>
      simp only [hrem]
      exact ih (cleanupParentDirectories fs1 p.dropLast root) errs root d
        (cleanupAux_preserves _ fs1 p.dropLast root d
          (goRemove_ok_dirs hrem hd hne) hnp) hdp' hnp
    | notExist =>
      simp only [hrem]
      exact ih (cleanupParentDirectories fs p.dropLast root) errs root d
        (cleanupAux_preserves _ fs p.dropLast root d hd hnp) hdp' hnp
    | failed =>
      simp only [hrem]
      exact ih fs (errs ++ [p]) root d hd hdp' hnp

/-- **C2** (amended).  Deletion never removes a directory outside the
root boundary's subtree (beyond the given backing paths themselves), and
in the end-to-end scenario — sole backing file in an otherwise-empty
subdirectory strictly under the root — the subdirectory is pruned while
the root survives whenever it still has other children.  (That the
boundary itself *is* removed when pruning leaves it empty is shown by
`c2_counterexample`.) -/
theorem c2_prune_bounded :
    (∀ (fs : FS) (paths : List FsPath) (root d : FsPath),
        d ∈ fs.dirs → d ∉ paths → root.isPrefixOf d = false →
        d ∈ (DeleteFiles fs paths root).1.dirs) ∧
      (DeleteFiles ⟨[["r", "sub", "f.jsonl"], ["r", "keep.txt"]],
            [["x"], ["r"], ["r", "sub"]]⟩
          [["r", "sub", "f.jsonl"]] ["r"]).1 =
        ⟨[["r", "keep.txt"]], [["x"], ["r"]]⟩ := by
  constructor
  · intro fs paths root d hd hdp hnp
    exact deleteFiles_fold_preserves paths fs [] root d hd hdp hnp
  · rfl

/-- Witness for the universally quantified part of `c2_prune_bounded`. -/
theorem c2_prune_bounded_witness :
    ["x"] ∈ (DeleteFiles ⟨[["r", "f.jsonl"]], [["x"], ["r"]]⟩
        [["r", "f.jsonl"]] ["r"]).1.dirs :=
  c2_prune_bounded.1 ⟨[["r", "f.jsonl"]], [["x"], ["r"]]⟩
    [["r", "f.jsonl"]] ["r"] ["x"] (by decide) (by decide) (by decide)

/-- **C2** counterexample: when the pruned subdirectory was the root
boundary's only child, the loop continues upward and removes the (now
empty) boundary directory itself before stopping — the claim says the
boundary is never removed. -/
theorem c2_counterexample :
    ["r"] ∈ FS.dirs ⟨[["r", "sub", "f.jsonl"]], [["r"], ["r", "sub"]]⟩ ∧
      (DeleteFiles ⟨[["r", "sub", "f.jsonl"]], [["r"], ["r", "sub"]]⟩
          [["r", "sub", "f.jsonl"]] ["r"]).1 = ⟨[], []⟩ := by
  exact ⟨by decide, rfl⟩

/-- The timestamp a line contributes to the `lastTS` recurrence
(unparseable or absent timestamps act as the zero time). -/
def tsOf : LogLine → Time
  | .entry e => e.ts.getD 0
  | _ => 0

theorem tsStep_preserves (st : ParseState) (e : LogEntry) :
    (tsStep st e).id = st.id ∧ (tsStep st e).cwd = st.cwd ∧
      (tsStep st e).createdAt = st.createdAt ∧ (tsStep st e).createdSet = st.createdSet := by
  unfold tsStep
  dsimp only
  split
  · split
    · exact ⟨rfl, rfl, rfl, rfl⟩
    · split
      · exact ⟨rfl, rfl, rfl, rfl⟩
      · exact ⟨rfl, rfl, rfl, rfl⟩
  · exact ⟨rfl, rfl, rfl, rfl⟩

theorem tsStep_lastTS (st : ParseState) (e : LogEntry) :
    (tsStep st e).lastTS = max st.lastTS (e.ts.getD 0) := by
  unfold tsStep
  dsimp only
  by_cases hc : e.ts.getD 0 > st.lastTS ∨ st.lastTS = 0
  · rw [if_pos hc]
    have hmax : max st.lastTS (e.ts.getD 0) = e.ts.getD 0 := by
      rcases hc with h | h
      · exact Nat.max_eq_right (Nat.le_of_lt h)
      · rw [h]
        exact Nat.max_eq_right (Nat.zero_le _)
    rw [hmax]
    split
    · rfl
    · split
      · rfl
      · rfl
  · rw [if_neg hc]
    push_neg at hc
    exact (Nat.max_eq_left hc.1).symm

theorem metaStep_preserves {st st1 : ParseState} {e : LogEntry}
    (h : metaStep st e = .ok st1) :
    st1.lastTS = st.lastTS ∧ st1.lastAction = st.lastAction := by
  unfold metaStep at h
  by_cases ht : e.type_ = strLit "session_meta"
  · rw [if_pos ht] at h
    cases hp : e.metaPayload with
    | none =>
      rw [hp] at h
      exact Except.noConfusion h
    | some p =>
      rw [hp] at h
      dsimp only at h
      cases hts : p.timestamp with
      | some t =>
        rw [hts] at h
        cases h
        exact ⟨rfl, rfl⟩
      | none =>
        rw [hts] at h
        cases h
        exact ⟨rfl, rfl⟩
  · rw [if_neg ht] at h
    cases h
    exact ⟨rfl, rfl⟩

theorem parseLines_lastTS :
    ∀ (ls : List LogLine) (st st' : ParseState), parseLines st ls = .ok st' →
      st'.lastTS = (ls.map tsOf).foldl max st.lastTS := by
  intro ls
  induction ls with
  | nil =>
    intro st st' h
    cases h
    rfl
  | cons l ls ih =>
    intro st st' h
    cases l with
    | malformed => exact Except.noConfusion h
    | oversized => exact Except.noConfusion h
    | entry e =>
      simp only [parseLines, parseStep] at h
      cases hm : metaStep st e with
      | error er =>
        rw [hm] at h
        exact Except.noConfusion h
      | ok st1 =>
        rw [hm] at h
        dsimp only at h
        have hstep := ih (tsStep st1 e) st' h
        rw [hstep, tsStep_lastTS, (metaStep_preserves hm).1]
        simp only [List.map_cons, List.foldl_cons, tsOf]

/-- **C1** counterexample: a file whose single entry (a `session_meta`
record with timestamp 5) produces an *empty* description nevertheless
ends with `UpdatedAt = 5`; the claim says `UpdatedAt` would be zero
because no entry produced a non-empty description. -/
theorem c1_counterexample :
    describeEntry ⟨some 5, strLit "session_meta",
        some ⟨strLit "a", none, []⟩, none, none⟩ = [] ∧
      parseSessionFile (strLit "f.jsonl")
          (.lines [.entry ⟨some 5, strLit "session_meta",
            some ⟨strLit "a", none, []⟩, none, none⟩]) =
        .ok ⟨strLit "a", 5, 5, [], strLit "session started", [strLit "f.jsonl"]⟩ :=
  ⟨rfl, rfl⟩

/-- **C1** (amended).  `UpdatedAt` of a parsed session equals the
maximum timestamp over *all* entries of the file (an entry whose
timestamp is absent or unparseable contributes the zero time), whether
or not the entry produced a description; it is zero only when no entry
carries a positive timestamp. -/
theorem c1_updated_at_global_max (path : GoStr) (ls : List LogLine) (s : Session)
    (h : parseSessionFile path (.lines ls) = .ok s) :
    s.UpdatedAt = (ls.map tsOf).foldl max 0 := by
  unfold parseSessionFile at h
  dsimp only at h
  cases hp : parseLines initParseState ls with
  | error e =>
    rw [hp] at h
    exact Except.noConfusion h
  | ok st =>
    rw [hp] at h
    dsimp only at h
    by_cases hid : st.id = []
    · rw [if_pos hid] at h
      exact Except.noConfusion h
    · rw [if_neg hid] at h
      cases h
      exact parseLines_lastTS ls initParseState st hp

/-- Witness for `c1_updated_at_global_max` on a concrete two-entry file
(timestamps 7 and 3, neither entry describable). -/
theorem c1_updated_at_global_max_witness :
    Session.UpdatedAt
        ⟨strLit "a", 7, 7, [], strLit "session started", [strLit "w.jsonl"]⟩ =
      (([.entry ⟨some 7, strLit "session_meta", some ⟨strLit "a", none, []⟩, none, none⟩,
          .entry ⟨some 3, strLit "other", none, none, none⟩] : List LogLine).map tsOf).foldl
        max 0 :=
  c1_updated_at_global_max (strLit "w.jsonl")
    [.entry ⟨some 7, strLit "session_meta", some ⟨strLit "a", none, []⟩, none, none⟩,
      .entry ⟨some 3, strLit "other", none, none, none⟩]
    ⟨strLit "a", 7, 7, [], strLit "session started", [strLit "w.jsonl"]⟩ rfl

/-- The `session_meta` payloads of a file's lines, in file order. -/
def metasOf (ls : List LogLine) : List SessionMetaPayload :=
  ls.filterMap fun l =>
    match l with
    | .entry e => if e.type_ = strLit "session_meta" then e.metaPayload else none
    | _ => none

theorem parseLines_meta :
    ∀ (ls : List LogLine) (st st' : ParseState), parseLines st ls = .ok st' →
      st'.id = (metasOf ls).foldl (fun _ m => m.id) st.id ∧
      st'.cwd = (metasOf ls).foldl (fun _ m => m.cwd) st.cwd ∧
      (st'.createdAt, st'.createdSet) =
        (metasOf ls).foldl
          (fun p m => match m.timestamp with | some t => (t, true) | none => p)
          (st.createdAt, st.createdSet) := by
  intro ls
  induction ls with
  | nil =>
    intro st st' h
    cases h
    exact ⟨rfl, rfl, rfl⟩
  | cons l ls ih =>
    intro st st' h
    cases l with
    | malformed => exact Except.noConfusion h
    | oversized => exact Except.noConfusion h
    | entry e =>
      simp only [parseLines, parseStep] at h
      cases hm : metaStep st e with
      | error er =>
        rw [hm] at h
        exact Except.noConfusion h
      | ok st1 =>
        rw [hm] at h
        dsimp only at h
        have hrest := ih (tsStep st1 e) st' h
        have hts := tsStep_preserves st1 e
        unfold metaStep at hm
        by_cases ht : e.type_ = strLit "session_meta"
        · rw [if_pos ht] at hm
          cases hp : e.metaPayload with
          | none =>
            rw [hp] at hm
            exact Except.noConfusion hm
          | some p =>
            rw [hp] at hm
            dsimp only at hm
            have hmetas : metasOf (.entry e :: ls) = p :: metasOf ls := by
              simp [metasOf, ht, hp]
            rw [hmetas]
            simp only [List.foldl_cons]
            cases hpt : p.timestamp with
            | some t =>
              rw [hpt] at hm
              cases hm
              refine ⟨?_, ?_, ?_⟩
              · rw [hrest.1, hts.1]
              · rw [hrest.2.1, hts.2.1]
              · rw [hrest.2.2, hts.2.2.1, hts.2.2.2]
            | none =>
              rw [hpt] at hm
              cases hm
              refine ⟨?_, ?_, ?_⟩
              · rw [hrest.1, hts.1]
              · rw [hrest.2.1, hts.2.1]
              · rw [hrest.2.2, hts.2.2.1, hts.2.2.2]
        · rw [if_neg ht] at hm
          cases hm
          have hmetas : metasOf (.entry e :: ls) = metasOf ls := by
            simp [metasOf, ht]
          rw [hmetas]
          refine ⟨?_, ?_, ?_⟩
          · rw [hrest.1, hts.1]
          · rw [hrest.2.1, hts.2.1]
          · rw [hrest.2.2, hts.2.2.1, hts.2.2.2]

theorem foldl_overwrite {α β : Type} (f : α → β) :
    ∀ (l : List α) (a : β) (h : l ≠ []),
      l.foldl (fun _ m => f m) a = f (l.getLast h) := by
  intro l
  induction l with
  | nil => intro a h; exact absurd rfl h
  | cons x xs ih =>
    intro a h
    cases xs with
    | nil => rfl
    | cons y ys =>
      have hne : y :: ys ≠ [] := by simp
      rw [List.foldl_cons, ih (f x) hne, List.getLast_cons hne]

theorem foldl_created (l : List SessionMetaPayload) :
    ∀ p : Time × Bool,
      l.foldl (fun p m => match m.timestamp with | some t => (t, true) | none => p) p =
        match (l.filterMap (fun m => m.timestamp)).getLast? with
        | some t => (t, true)
        | none => p := by
  induction l with
  | nil => intro p; rfl
  | cons m l ih =>
    intro p
    rw [List.foldl_cons]
    cases hts : m.timestamp with
    | none =>
      dsimp only
      rw [ih p]
      have : (m :: l).filterMap (fun m => m.timestamp) = l.filterMap (fun m => m.timestamp) := by
        simp [List.filterMap_cons, hts]
      rw [this]
    | some t =>
      dsimp only
      rw [ih (t, true)]
      have hfm : (m :: l).filterMap (fun m => m.timestamp) =
          t :: l.filterMap (fun m => m.timestamp) := by
        simp [List.filterMap_cons, hts]
      rw [hfm]
      cases hl : l.filterMap (fun m => m.timestamp) with
      | nil => rfl
      | cons u us =>
        rw [List.getLast?_cons_cons]
        cases hgl : (u :: us).getLast? with
        | none => exact absurd (List.getLast?_eq_none_iff.mp hgl) (by simp)
        | some v => rfl

/-- **C10** (confirmed).  With several `session_meta` records in one
file, the parsed session keeps the `id` and `cwd` of the *last* one
(later records overwrite earlier ones unconditionally), and `CreatedAt`
is seeded from the last `session_meta` whose metadata timestamp parsed
(falling back to `UpdatedAt` only when none parsed or the seed is the
zero time). -/
theorem c10_last_meta_wins (path : GoStr) (ls : List LogLine) (s : Session)
    (h : parseSessionFile path (.lines ls) = .ok s) (hm : metasOf ls ≠ []) :
    s.ID = ((metasOf ls).getLast hm).id ∧
    s.WorkingDir = ((metasOf ls).getLast hm).cwd ∧
    (∀ t, ((metasOf ls).filterMap (fun m => m.timestamp)).getLast? = some t →
      t ≠ 0 → s.CreatedAt = t) ∧
    (((metasOf ls).filterMap (fun m => m.timestamp)).getLast? = none →
      s.CreatedAt = s.UpdatedAt) := by
  unfold parseSessionFile at h
  dsimp only at h
  cases hp : parseLines initParseState ls with
  | error e =>
    rw [hp] at h
    exact Except.noConfusion h
  | ok st =>
    rw [hp] at h
    dsimp only at h
    by_cases hid : st.id = []
    · rw [if_pos hid] at h
      exact Except.noConfusion h
    · rw [if_neg hid] at h
      cases h
      have hmeta := parseLines_meta ls initParseState st hp
      have hidval : st.id = ((metasOf ls).getLast hm).id := by
        rw [hmeta.1]
        exact foldl_overwrite (fun m : SessionMetaPayload => m.id) (metasOf ls) [] hm
      have hcwdval : st.cwd = ((metasOf ls).getLast hm).cwd := by
        rw [hmeta.2.1]
        exact foldl_overwrite (fun m : SessionMetaPayload => m.cwd) (metasOf ls) [] hm
      have hcre := hmeta.2.2
      rw [foldl_created (metasOf ls)
        (initParseState.createdAt, initParseState.createdSet)] at hcre
      refine ⟨hidval, hcwdval, ?_, ?_⟩
      · intro t hlast hnz
        rw [hlast] at hcre
        have hca : st.createdAt = t := congrArg Prod.fst hcre
        have hcs : st.createdSet = true := congrArg Prod.snd hcre
        dsimp only
        rw [if_neg]
        · exact hca
        · rw [hca, hcs]
          simp [hnz]
      · intro hlast
        rw [hlast] at hcre
        have hcs : st.createdSet = false := congrArg Prod.snd hcre
        dsimp only
        rw [if_pos]
        rw [hcs]
        simp

/-- Witness for `c10_last_meta_wins`: a file with two `session_meta`
records; the second one's `id`, `cwd` and timestamp win. -/
theorem c10_last_meta_wins_witness :
    Session.ID ⟨strLit "b", 9, 9, strLit "w2", strLit "session started",
        [strLit "m.jsonl"]⟩ =
      ((metasOf
          [.entry ⟨some 1, strLit "session_meta",
              some ⟨strLit "a", some 4, strLit "w1"⟩, none, none⟩,
            .entry ⟨some 9, strLit "session_meta",
              some ⟨strLit "b", some 9, strLit "w2"⟩, none, none⟩]).getLast
        (by decide)).id := by
  have h := c10_last_meta_wins (strLit "m.jsonl")
    [.entry ⟨some 1, strLit "session_meta",
        some ⟨strLit "a", some 4, strLit "w1"⟩, none, none⟩,
      .entry ⟨some 9, strLit "session_meta",
        some ⟨strLit "b", some 9, strLit "w2"⟩, none, none⟩]
    ⟨strLit "b", 9, 9, strLit "w2", strLit "session started", [strLit "m.jsonl"]⟩
    rfl (by decide)
  exact h.1

theorem errStep_append_init :
    ∀ (ls : List (GoStr × FileContent)) (init : List LoadErr),
      ls.foldl errStep init = init ++ ls.foldl errStep [] := by
  intro ls
  induction ls with
  | nil => intro init; simp
  | cons pc ls ih =>
    intro init
    rw [List.foldl_cons, List.foldl_cons, ih (errStep init pc), ih (errStep [] pc)]
    have hstep : errStep init pc = init ++ errStep [] pc := by
      unfold errStep
      by_cases hext : goExt pc.1 = strLit ".jsonl"
      · rw [if_pos hext, if_pos hext]
        cases parseSessionFile pc.1 pc.2 with
        | error e => simp
        | ok s => simp
      · rw [if_neg hext, if_neg hext]
        simp
    rw [hstep, List.append_assoc]

/-- **C8** (confirmed).  A successfully parsed file always carries a
non-empty identifier; a file whose lines leave the identifier empty
parses to the missing-identifier error; and a file whose parse fails
contributes nothing to the aggregated sessions (the remaining walk is
unaffected) while its failure is collected into the combined error. -/
theorem c8_missing_id :
    (∀ (path : GoStr) (ls : List LogLine) (s : Session),
        parseSessionFile path (.lines ls) = .ok s → s.ID ≠ []) ∧
    (∀ (path : GoStr) (ls : List LogLine) (st : ParseState),
        parseLines initParseState ls = .ok st → st.id = [] →
        parseSessionFile path (.lines ls) = .error .missingID) ∧
    (∀ (xs ys : List (GoStr × FileContent)) (p : GoStr) (c : FileContent)
        (e : ParseError),
        goExt p = strLit ".jsonl" → parseSessionFile p c = .error e →
        aggSessions (xs ++ (p, c) :: ys) = aggSessions (xs ++ ys) ∧
        LoadErr.parseErr p e ∈ aggErrors (xs ++ (p, c) :: ys)) := by
  refine ⟨?_, ?_, ?_⟩
  · intro path ls s h
    unfold parseSessionFile at h
    dsimp only at h
    cases hp : parseLines initParseState ls with
    | error er =>
      rw [hp] at h
      exact Except.noConfusion h
    | ok st =>
      rw [hp] at h
      dsimp only at h
      by_cases hid : st.id = []
      · rw [if_pos hid] at h
        exact Except.noConfusion h
      · rw [if_neg hid] at h
        cases h
        exact hid
  · intro path ls st h hid
    unfold parseSessionFile
    dsimp only
    rw [h]
    dsimp only
    rw [if_pos hid]
  · intro xs ys p c e hext hparse
    have hstep : sessStep = fun acc pc =>
        if goExt pc.1 = strLit ".jsonl" then
          match parseSessionFile pc.1 pc.2 with
          | .ok s => upsert acc s
          | .error _ => acc
        else acc := rfl
    have hskip : ∀ acc, sessStep acc (p, c) = acc := by
      intro acc
      unfold sessStep
      rw [if_pos hext, hparse]
    constructor
    · unfold aggSessions
      rw [List.foldl_append, List.foldl_append, List.foldl_cons, hskip]
    · unfold aggErrors
      rw [List.foldl_append, List.foldl_cons]
      have herr : errStep (List.foldl errStep [] xs) (p, c) =
          List.foldl errStep [] xs ++ [LoadErr.parseErr p e] := by
        unfold errStep
        rw [if_pos hext, hparse]
      rw [herr, errStep_append_init ys]
      simp

/-- A file with no `session_meta` record at all (hence no identifier). -/
def c8NoIdFile : List LogLine :=
  [.entry ⟨some 3, strLit "event_msg", none, none,
      some ⟨strLit "token_count", [], []⟩⟩]

/-- A well-formed single-session file used alongside `c8NoIdFile`. -/
def c8GoodFile : List LogLine :=
  [.entry ⟨some 2, strLit "session_meta",
      some ⟨strLit "g", some 2, strLit "wg"⟩, none, none⟩]

/-- Witness for `c8_missing_id`: the identifier-less file errors, is
absent from the aggregate, and leaves the well-formed file's session
intact. -/
theorem c8_missing_id_witness :
    parseSessionFile (strLit "noid.jsonl") (.lines c8NoIdFile) =
        .error .missingID ∧
      aggSessions [(strLit "noid.jsonl", .lines c8NoIdFile),
          (strLit "good.jsonl", .lines c8GoodFile)] =
        aggSessions [(strLit "good.jsonl", .lines c8GoodFile)] ∧
      LoadErr.parseErr (strLit "noid.jsonl") ParseError.missingID ∈
        aggErrors [(strLit "noid.jsonl", .lines c8NoIdFile),
          (strLit "good.jsonl", .lines c8GoodFile)] := by
  have h2 := (c8_missing_id.2.2 [] [(strLit "good.jsonl", .lines c8GoodFile)]
    (strLit "noid.jsonl") (.lines c8NoIdFile) ParseError.missingID rfl
    (c8_missing_id.2.1 (strLit "noid.jsonl") c8NoIdFile
      ⟨[], [], 0, false, strLit "token usage updated", 3⟩ rfl rfl))
  exact ⟨c8_missing_id.2.1 (strLit "noid.jsonl") c8NoIdFile
      ⟨[], [], 0, false, strLit "token usage updated", 3⟩ rfl rfl,
    h2.1, h2.2⟩

theorem strLe_total (a b : GoStr) : strLe a b = true ∨ strLe b a = true := by
  unfold strLe
  cases h : strLt b a
  · exact Or.inl rfl
  · right
    rw [strLt_asymm h]
    rfl

theorem strLe_trans {a b c : GoStr}
    (h1 : strLe a b = true) (h2 : strLe b c = true) : strLe a c = true := by
  unfold strLe at h1 h2 ⊢
  cases hca : strLt c a
  · rfl
  · exfalso
    by_cases hbc : b = c
    · subst hbc
      rw [hca] at h1
      exact Bool.noConfusion h1
    · rcases strLt_connex hbc with h | h
      · have hba := strLt_trans h hca
        rw [hba] at h1
        exact Bool.noConfusion h1
      · rw [h] at h2
        exact Bool.noConfusion h2

theorem mem_appendMissing :
    ∀ (l acc : List GoStr) (x : GoStr),
      x ∈ appendMissing acc l ↔ x ∈ acc ∨ x ∈ l := by
  intro l
  induction l with
  | nil =>
    intro acc x
    simp [appendMissing]
  | cons fp l ih =>
    intro acc x
    unfold appendMissing at ih ⊢
    rw [List.foldl_cons]
    by_cases hmem : fp ∈ acc
    · rw [if_pos hmem, ih acc x]
      constructor
      · rintro (h | h)
        · exact Or.inl h
        · exact Or.inr (List.mem_cons_of_mem fp h)
      · rintro (h | h)
        · exact Or.inl h
        · rcases List.mem_cons.mp h with h | h
          · exact Or.inl (h ▸ hmem)
          · exact Or.inr h
    · rw [if_neg hmem, ih (acc ++ [fp]) x]
      simp only [List.mem_append, List.mem_singleton, List.mem_cons]
      tauto

theorem nodup_appendMissing :
    ∀ (l acc : List GoStr), acc.Nodup → (appendMissing acc l).Nodup := by
  intro l
  induction l with
  | nil =>
    intro acc h
    exact h
  | cons fp l ih =>
    intro acc h
    unfold appendMissing at ih ⊢
    rw [List.foldl_cons]
    by_cases hmem : fp ∈ acc
    · rw [if_pos hmem]
      exact ih acc h
    · rw [if_neg hmem]
      refine ih (acc ++ [fp]) ?_
      simp [List.nodup_append, h, hmem]

theorem mergeInto_fields (a b : Session) :
    (mergeInto a b).LastAction =
        (if a.UpdatedAt < b.UpdatedAt then b.LastAction else a.LastAction) ∧
      (mergeInto a b).UpdatedAt =
        (if a.UpdatedAt < b.UpdatedAt then b.UpdatedAt else a.UpdatedAt) ∧
      (mergeInto a b).WorkingDir =
        (if a.UpdatedAt < b.UpdatedAt then
          (if b.WorkingDir ≠ [] then b.WorkingDir else a.WorkingDir)
        else
          (if a.WorkingDir = [] ∧ b.WorkingDir ≠ [] then b.WorkingDir
            else a.WorkingDir)) ∧
      (mergeInto a b).FilePaths = appendMissing a.FilePaths b.FilePaths := by
  unfold mergeInto
  by_cases h1 : b.CreatedAt < a.CreatedAt ∨ a.CreatedAt = 0
  · rw [if_pos h1]
    dsimp only
    by_cases h2 : a.UpdatedAt < b.UpdatedAt
    · rw [if_pos h2, if_pos h2, if_pos h2, if_pos h2]
      exact ⟨rfl, rfl, rfl, rfl⟩
    · rw [if_neg h2, if_neg h2, if_neg h2, if_neg h2]
      by_cases h3 : a.WorkingDir = [] ∧ b.WorkingDir ≠ []
      · rw [if_pos h3, if_pos h3]
        exact ⟨rfl, rfl, rfl, rfl⟩
      · rw [if_neg h3, if_neg h3]
        exact ⟨rfl, rfl, rfl, rfl⟩
  · rw [if_neg h1]
    dsimp only
    by_cases h2 : a.UpdatedAt < b.UpdatedAt
    · rw [if_pos h2, if_pos h2, if_pos h2, if_pos h2]
      exact ⟨rfl, rfl, rfl, rfl⟩
    · rw [if_neg h2, if_neg h2, if_neg h2, if_neg h2]
      by_cases h3 : a.WorkingDir = [] ∧ b.WorkingDir ≠ []
      · rw [if_pos h3, if_pos h3]
        exact ⟨rfl, rfl, rfl, rfl⟩
      · rw [if_neg h3, if_neg h3]
        exact ⟨rfl, rfl, rfl, rfl⟩

/-- **C4** (confirmed).  Merging two same-ID fragments with different
`UpdatedAt` keeps the strictly later fragment's `LastAction` and
`UpdatedAt`, adopts the later fragment's `WorkingDir` whenever that is
non-empty, only backfills an empty record-of-record `WorkingDir` when
the new fragment is not strictly later, and emits the deduplicated,
ascending-sorted union of both fragments' `FilePaths`. -/
theorem c4_merge_favors_later (a b : Session) (_hne : a.UpdatedAt ≠ b.UpdatedAt)
    (ha : a.FilePaths.Nodup) :
    (finalizeSession (mergeInto a b)).LastAction =
        (if a.UpdatedAt < b.UpdatedAt then b else a).LastAction ∧
      (finalizeSession (mergeInto a b)).UpdatedAt =
        (if a.UpdatedAt < b.UpdatedAt then b else a).UpdatedAt ∧
      ((if a.UpdatedAt < b.UpdatedAt then b else a).WorkingDir ≠ [] →
        (finalizeSession (mergeInto a b)).WorkingDir =
          (if a.UpdatedAt < b.UpdatedAt then b else a).WorkingDir) ∧
      (b.UpdatedAt < a.UpdatedAt →
        (finalizeSession (mergeInto a b)).WorkingDir =
          (if a.WorkingDir = [] ∧ b.WorkingDir ≠ [] then b.WorkingDir
            else a.WorkingDir)) ∧
      (finalizeSession (mergeInto a b)).FilePaths.Nodup ∧
      (finalizeSession (mergeInto a b)).FilePaths.Pairwise
        (fun x y => strLe x y = true) ∧
      (∀ p, p ∈ (finalizeSession (mergeInto a b)).FilePaths ↔
        p ∈ a.FilePaths ∨ p ∈ b.FilePaths) := by
  have hf := mergeInto_fields a b
  have hfinLA : (finalizeSession (mergeInto a b)).LastAction = (mergeInto a b).LastAction := rfl
  have hfinUA : (finalizeSession (mergeInto a b)).UpdatedAt = (mergeInto a b).UpdatedAt := rfl
  have hfinWD : (finalizeSession (mergeInto a b)).WorkingDir = (mergeInto a b).WorkingDir := rfl
  have hfinFP : (finalizeSession (mergeInto a b)).FilePaths =
      List.insertionSort (fun x y => strLe x y = true) (mergeInto a b).FilePaths := rfl
  letI : IsTotal GoStr (fun x y => strLe x y = true) := ⟨strLe_total⟩
  letI : IsTrans GoStr (fun x y => strLe x y = true) := ⟨fun _ _ _ => strLe_trans⟩
  have hperm := List.perm_insertionSort
    (fun x y : GoStr => strLe x y = true) (mergeInto a b).FilePaths
  refine ⟨?_, ?_, ?_, ?_, ?_, ?_, ?_⟩
  · rw [hfinLA, hf.1]
    by_cases h2 : a.UpdatedAt < b.UpdatedAt
    · rw [if_pos h2, if_pos h2]
    · rw [if_neg h2, if_neg h2]
  · rw [hfinUA, hf.2.1]
    by_cases h2 : a.UpdatedAt < b.UpdatedAt
    · rw [if_pos h2, if_pos h2]
    · rw [if_neg h2, if_neg h2]
  · intro hwd
    rw [hfinWD, hf.2.2.1]
    by_cases h2 : a.UpdatedAt < b.UpdatedAt
    · rw [if_pos h2] at hwd ⊢
      rw [if_pos hwd, if_pos h2]
    · rw [if_neg h2] at hwd ⊢
      by_cases h3 : a.WorkingDir = [] ∧ b.WorkingDir ≠ []
      · exact absurd h3.1 hwd
      · rw [if_neg h3, if_neg h2]
  · intro hlt
    have h2 : ¬ a.UpdatedAt < b.UpdatedAt := Nat.lt_asymm hlt
    rw [hfinWD, hf.2.2.1, if_neg h2]
  · rw [hfinFP]
    refine hperm.nodup_iff.mpr ?_
    rw [hf.2.2.2]
    exact nodup_appendMissing b.FilePaths a.FilePaths ha
  · rw [hfinFP]
    exact List.sorted_insertionSort (fun x y : GoStr => strLe x y = true)
      (mergeInto a b).FilePaths
  · intro p
    rw [hfinFP, hperm.mem_iff, hf.2.2.2, mem_appendMissing]

/-- Witness for `c4_merge_favors_later` on concrete fragments (record of
record updated at 10, incoming fragment at 20 with working dir "wb"). -/
theorem c4_merge_favors_later_witness :
    (finalizeSession (mergeInto
        ⟨strLit "s", 5, 10, [], strLit "la", [strLit "p2", strLit "p1"]⟩
        ⟨strLit "s", 6, 20, strLit "wb", strLit "lb", [strLit "p1", strLit "p3"]⟩)).LastAction =
        strLit "lb" ∧
      (strLit "p3" ∈ (finalizeSession (mergeInto
          ⟨strLit "s", 5, 10, [], strLit "la", [strLit "p2", strLit "p1"]⟩
          ⟨strLit "s", 6, 20, strLit "wb", strLit "lb",
            [strLit "p1", strLit "p3"]⟩)).FilePaths ↔
        strLit "p3" ∈ [strLit "p2", strLit "p1"] ∨
          strLit "p3" ∈ [strLit "p1", strLit "p3"]) := by
  have h := c4_merge_favors_later
    ⟨strLit "s", 5, 10, [], strLit "la", [strLit "p2", strLit "p1"]⟩
    ⟨strLit "s", 6, 20, strLit "wb", strLit "lb", [strLit "p1", strLit "p3"]⟩
    (by decide) (by decide)
  exact ⟨h.1, h.2.2.2.2.2.2 (strLit "p3")⟩

theorem cursorInv_applyFilter (m : UIModel) : cursorInv (applyFilter m) := by
  unfold applyFilter
  by_cases h0 : m.entries.length = 0
  · rw [if_pos h0]
    exact Or.inl ⟨rfl, rfl⟩
  · rw [if_neg h0]
    dsimp only
    by_cases h1 : (computeFiltered m.query m.entries).length = 0
    · rw [if_pos h1]
      exact Or.inl ⟨List.length_eq_zero.mp h1, rfl⟩
    · rw [if_neg h1]
      unfold cursorInv
      dsimp only
      right
      have hlen : 1 ≤ ((computeFiltered m.query m.entries).length : Int) := by
        have := Nat.pos_of_ne_zero h1
        omega
      refine ⟨fun hc => h1 (by rw [hc]; rfl), ?_⟩
      by_cases h2 : m.selected ≥ ((computeFiltered m.query m.entries).length : Int)
      · rw [if_pos h2]
        rw [if_neg (by omega :
          ¬ ((computeFiltered m.query m.entries).length : Int) - 1 < 0)]
        omega
      · rw [if_neg h2]
        by_cases h3 : m.selected < 0
        · rw [if_pos h3]
          omega
        · rw [if_neg h3]
          omega

/-- **C5** (confirmed).  Starting from any state satisfying the cursor
invariant, every selection-model mutation — typing a character,
backspace, clearing the query, moving the selection by any delta, and
delete (whatever the lifecycle outcome) — yields a state satisfying it
again: `selected = 0` when `filtered` is empty, and
`0 ≤ selected ≤ len(filtered) - 1` otherwise. -/
theorem c5_cursor_invariant (m : UIModel) (h : cursorInv m) :
    (∀ c, cursorInv (appendChar c m)) ∧
      cursorInv (backspaceOp m) ∧
      cursorInv (clearOp m) ∧
      (∀ d, cursorInv (moveSelectionBy d m)) ∧
      (∀ err, cursorInv (deleteSelected err m)) := by
  refine ⟨?_, ?_, ?_, ?_, ?_⟩
  · intro c
    exact cursorInv_applyFilter _
  · unfold backspaceOp
    split
    · exact cursorInv_applyFilter _
    · exact h
  · unfold clearOp
    split
    · exact cursorInv_applyFilter _
    · exact h
  · intro d
    unfold moveSelectionBy
    by_cases hf : m.filtered = []
    · rw [if_pos hf]
      exact h
    · rw [if_neg hf]
      unfold cursorInv
      dsimp only
      right
      have hlen : 1 ≤ (m.filtered.length : Int) := by
        have : m.filtered.length ≠ 0 := fun hc => hf (List.length_eq_zero.mp hc)
        omega
      refine ⟨hf, ?_⟩
      by_cases h2 : m.selected + d < 0
      · rw [if_pos h2]
        omega
      · rw [if_neg h2]
        by_cases h3 : m.selected + d ≥ (m.filtered.length : Int)
        · rw [if_pos h3]
          omega
        · rw [if_neg h3]
          omega
  · intro err
    unfold deleteSelected
    by_cases hf : m.filtered = []
    · rw [if_pos hf]
      rcases h with ⟨h1, h2⟩ | ⟨h1, h2⟩
      · exact Or.inl ⟨h1, h2⟩
      · exact Or.inr ⟨h1, h2⟩
    · rw [if_neg hf]
      cases err with
      | some e =>
        dsimp only
        rcases h with ⟨h1, h2⟩ | ⟨h1, h2⟩
        · exact Or.inl ⟨h1, h2⟩
        · exact Or.inr ⟨h1, h2⟩
      | none =>
        dsimp only
        exact cursorInv_applyFilter _

theorem applyFilter_filtered (m : UIModel) :
    (applyFilter m).filtered = computeFiltered m.query m.entries := by
  unfold applyFilter
  by_cases h0 : m.entries.length = 0
  · rw [if_pos h0]
    have he : m.entries = [] := List.length_eq_zero.mp h0
    dsimp only
    rw [he]
    unfold computeFiltered
    dsimp only
    split
    · rfl
    · rfl
  · rw [if_neg h0]
    dsimp only
    by_cases h1 : (computeFiltered m.query m.entries).length = 0
    · rw [if_pos h1]
    · rw [if_neg h1]

/-- **C9** (confirmed).  `deleteSelected` on an empty filtered view only
reports "Nothing to delete"; a failing lifecycle deletion only reports
the failure, leaving rows, filtered view, query and cursor untouched; a
successful one removes exactly the selected session's row and recomputes
the filter (re-establishing the cursor invariant). -/
theorem c9_delete_behavior (m : UIModel) :
    (∀ err, m.filtered = [] →
        deleteSelected err m = { m with status := strLit "Nothing to delete" }) ∧
      (∀ e, m.filtered ≠ [] →
        deleteSelected (some e) m = { m with status := strLit "Delete failed: " ++ e }) ∧
      (m.filtered ≠ [] → cursorInv m → (∀ i ∈ m.filtered, i < m.entries.length) →
        (deleteSelected none m).entries =
            m.entries.take (m.filtered.getD m.selected.toNat 0) ++
              m.entries.drop (m.filtered.getD m.selected.toNat 0 + 1) ∧
          (deleteSelected none m).entries.length + 1 = m.entries.length ∧
          (deleteSelected none m).status =
            strLit "Session " ++
              (m.entries.getD (m.filtered.getD m.selected.toNat 0) default).session.ID ++
              strLit " deleted" ∧
          (deleteSelected none m).filtered =
            computeFiltered m.query
              (m.entries.eraseIdx (m.filtered.getD m.selected.toNat 0)) ∧
          cursorInv (deleteSelected none m)) := by
  refine ⟨?_, ?_, ?_⟩
  · intro err hf
    unfold deleteSelected
    rw [if_pos hf]
  · intro e hf
    unfold deleteSelected
    rw [if_neg hf]
  · intro hf hinv hbound
    have hsel : m.selected.toNat < m.filtered.length := by
      rcases hinv with ⟨h1, _⟩ | ⟨_, h1, h2⟩
      · exact absurd h1 hf
      · omega
    have hidx : m.filtered.getD m.selected.toNat 0 ∈ m.filtered := by
      rw [List.getD_eq_getElem m.filtered 0 hsel]
      exact List.getElem_mem hsel
    have hlt : m.filtered.getD m.selected.toNat 0 < m.entries.length :=
      hbound _ hidx
    have hdel : deleteSelected none m =
        applyFilter { m with
          entries := m.entries.eraseIdx (m.filtered.getD m.selected.toNat 0)
          status := strLit "Session " ++
            (m.entries.getD (m.filtered.getD m.selected.toNat 0) default).session.ID ++
            strLit " deleted" } := by
      unfold deleteSelected
      rw [if_neg hf]
    have hent : (deleteSelected none m).entries =
        m.entries.eraseIdx (m.filtered.getD m.selected.toNat 0) := by
      rw [hdel]
      unfold applyFilter
      dsimp only
      split
      · rfl
      · split
        · rfl
        · rfl
    refine ⟨?_, ?_, ?_, ?_, ?_⟩
    · rw [hent]
      exact List.eraseIdx_eq_take_drop_succ _ _
    · rw [hent, List.length_eraseIdx_of_lt hlt]
      omega
    · rw [hdel]
      unfold applyFilter
      dsimp only
      split
      · rfl
      · split
        · rfl
        · rfl
    · rw [hdel, applyFilter_filtered]
    · rw [hdel]
      exact cursorInv_applyFilter _

/-- The comparator's underlying lexicographic test on plain values:
ascending distance, then descending update time, then ascending ID. -/
def lexLess (da db ua ub : Nat) (ia ib : GoStr) : Bool :=
  if da = db then
    (if ua = ub then strLt ia ib else decide (ub < ua))
  else decide (da < db)

theorem rankLess_eq_lexLess (entries : List Row) (a b : Rank) :
    rankLess entries a b =
      lexLess a.distance b.distance
        ((entries.getD a.originalIndex default).session.UpdatedAt)
        ((entries.getD b.originalIndex default).session.UpdatedAt)
        ((entries.getD a.originalIndex default).session.ID)
        ((entries.getD b.originalIndex default).session.ID) := rfl

theorem lexLess_asymm {da db ua ub : Nat} {ia ib : GoStr}
    (h : lexLess da db ua ub ia ib = true) : lexLess db da ub ua ib ia = false := by
  unfold lexLess at h ⊢
  by_cases hd : da = db
  · rw [if_pos hd] at h
    rw [if_pos hd.symm]
    by_cases hu : ua = ub
    · rw [if_pos hu] at h
      rw [if_pos hu.symm]
      exact strLt_asymm h
    · rw [if_neg hu] at h
      rw [if_neg (fun hh => hu hh.symm)]
      simp only [decide_eq_true_eq] at h
      simp only [decide_eq_false_iff_not]
      omega
  · rw [if_neg hd] at h
    rw [if_neg (fun hh => hd hh.symm)]
    simp only [decide_eq_true_eq] at h
    simp only [decide_eq_false_iff_not]
    omega

theorem lexLess_negtrans {dc da db uc ua ub : Nat} {ic ia ib : GoStr}
    (h : lexLess dc da uc ua ic ia = true) :
    lexLess dc db uc ub ic ib = true ∨ lexLess db da ub ua ib ia = true := by
  have hda : dc < da ∨ (dc = da ∧ (ua < uc ∨ (uc = ua ∧ strLt ic ia = true))) := by
    unfold lexLess at h
    by_cases hd : dc = da
    · rw [if_pos hd] at h
      by_cases hu : uc = ua
      · rw [if_pos hu] at h
        exact Or.inr ⟨hd, Or.inr ⟨hu, h⟩⟩
      · rw [if_neg hu] at h
        simp only [decide_eq_true_eq] at h
        exact Or.inr ⟨hd, Or.inl h⟩
    · rw [if_neg hd] at h
      simp only [decide_eq_true_eq] at h
      exact Or.inl h
  rcases Nat.lt_trichotomy dc db with hcb | hcb | hcb
  · left
    unfold lexLess
    rw [if_neg (Nat.ne_of_lt hcb)]
    simp [hcb]
  · rcases hda with hlt | ⟨hde, hinner⟩
    · right
      unfold lexLess
      rw [if_neg (by omega : ¬ db = da)]
      simp only [decide_eq_true_eq]
      omega
    · rcases Nat.lt_trichotomy uc ub with hub | hub | hub
      · right
        unfold lexLess
        rw [if_pos (by omega : db = da)]
        rcases hinner with h1 | ⟨h1, _⟩
        · rw [if_neg (by omega : ¬ ub = ua)]
          simp only [decide_eq_true_eq]
          omega
        · rw [if_neg (by omega : ¬ ub = ua)]
          simp only [decide_eq_true_eq]
          omega
      · rcases hinner with h1 | ⟨h1, h2⟩
        · right
          unfold lexLess
          rw [if_pos (by omega : db = da)]
          rw [if_neg (by omega : ¬ ub = ua)]
          simp only [decide_eq_true_eq]
          omega
        · by_cases hib : strLt ic ib = true
          · left
            unfold lexLess
            rw [if_pos hcb, if_pos (by omega : uc = ub)]
            exact hib
          · right
            unfold lexLess
            rw [if_pos (by omega : db = da), if_pos (by omega : ub = ua)]
            by_cases hbc : ib = ic
            · rw [hbc]
              exact h2
            · rcases strLt_connex hbc with hh | hh
              · exact strLt_trans hh h2
              · exact absurd hh hib
      · left
        unfold lexLess
        rw [if_pos hcb, if_neg (by omega : ¬ uc = ub)]
        simp only [decide_eq_true_eq]
        omega
  · rcases hda with hlt | ⟨hde, _⟩
    · right
      unfold lexLess
      rw [if_neg (by omega : ¬ db = da)]
      simp only [decide_eq_true_eq]
      omega
    · right
      unfold lexLess
      rw [if_neg (by omega : ¬ db = da)]
      simp only [decide_eq_true_eq]
      omega

theorem lexLess_tie {da db ua ub : Nat} {ia ib : GoStr}
    (h1 : lexLess da db ua ub ia ib = false)
    (h2 : lexLess db da ub ua ib ia = false) :
    da = db ∧ ua = ub ∧ ia = ib := by
  unfold lexLess at h1 h2
  by_cases hd : da = db
  · rw [if_pos hd] at h1
    rw [if_pos hd.symm] at h2
    by_cases hu : ua = ub
    · rw [if_pos hu] at h1
      rw [if_pos hu.symm] at h2
      refine ⟨hd, hu, ?_⟩
      by_cases hi : ia = ib
      · exact hi
      · rcases strLt_connex hi with hh | hh
        · rw [hh] at h1
          exact Bool.noConfusion h1
        · rw [hh] at h2
          exact Bool.noConfusion h2
    · rw [if_neg hu] at h1
      rw [if_neg (fun hh => hu hh.symm)] at h2
      simp only [decide_eq_false_iff_not] at h1 h2
      omega
  · rw [if_neg hd] at h1
    rw [if_neg (fun hh => hd hh.symm)] at h2
    simp only [decide_eq_false_iff_not] at h1 h2
    omega

theorem rankLe_total (entries : List Row) (a b : Rank) :
    rankLe entries a b = true ∨ rankLe entries b a = true := by
  unfold rankLe
  cases h : rankLess entries b a
  · simp
  · right
    rw [rankLess_eq_lexLess] at h ⊢
    rw [lexLess_asymm h]
    rfl

theorem rankLe_trans {entries : List Row} {a b c : Rank}
    (h1 : rankLe entries a b = true) (h2 : rankLe entries b c = true) :
    rankLe entries a c = true := by
  unfold rankLe at h1 h2 ⊢
  cases hca : rankLess entries c a
  · rfl
  · exfalso
    rw [rankLess_eq_lexLess] at hca
    rcases lexLess_negtrans hca with hh | hh
    · rw [rankLess_eq_lexLess] at h2
      rw [hh] at h2
      exact Bool.noConfusion h2
    · rw [rankLess_eq_lexLess] at h1
      rw [hh] at h1
      exact Bool.noConfusion h1

theorem rawRanks_elem {q : GoStr} :
    ∀ (keys : List GoStr) (n : Nat) (r : Rank), r ∈ rawRanks q keys n →
      n ≤ r.originalIndex ∧ r.originalIndex - n < keys.length ∧
        fuzzyMatchFold q (keys.getD (r.originalIndex - n) []) = true ∧
        r.distance =
          levDist (toLowerStr q) (toLowerStr (keys.getD (r.originalIndex - n) [])) := by
  intro keys
  induction keys with
  | nil =>
    intro n r hr
    simp [rawRanks] at hr
  | cons k ks ih =>
    intro n r hr
    unfold rawRanks at hr
    by_cases hm : fuzzyMatchFold q k = true
    · rw [if_pos hm] at hr
      rcases List.mem_cons.mp hr with hr | hr
      · subst hr
        refine ⟨Nat.le_refl n, ?_, ?_, ?_⟩
        · simp
        · simpa using hm
        · simp
      · have := ih (n + 1) r hr
        have h1 := this.1
        have h2 := this.2.1
        refine ⟨by omega, by
            simp only [List.length_cons]
            omega, ?_, ?_⟩
        · have hidx : r.originalIndex - n = (r.originalIndex - (n + 1)) + 1 := by omega
          rw [hidx, List.getD_cons_succ]
          exact this.2.2.1
        · have hidx : r.originalIndex - n = (r.originalIndex - (n + 1)) + 1 := by omega
          rw [hidx, List.getD_cons_succ]
          exact this.2.2.2
    · rw [if_neg hm] at hr
      have := ih (n + 1) r hr
      have h1 := this.1
      have h2 := this.2.1
      refine ⟨by omega, by
          simp only [List.length_cons]
          omega, ?_, ?_⟩
      · have hidx : r.originalIndex - n = (r.originalIndex - (n + 1)) + 1 := by omega
        rw [hidx, List.getD_cons_succ]
        exact this.2.2.1
      · have hidx : r.originalIndex - n = (r.originalIndex - (n + 1)) + 1 := by omega
        rw [hidx, List.getD_cons_succ]
        exact this.2.2.2

theorem rawRanks_complete {q : GoStr} :
    ∀ (keys : List GoStr) (n j : Nat), j < keys.length →
      fuzzyMatchFold q (keys.getD j []) = true →
      (⟨levDist (toLowerStr q) (toLowerStr (keys.getD j [])), n + j⟩ : Rank) ∈
        rawRanks q keys n := by
  intro keys
  induction keys with
  | nil =>
    intro n j hj
    simp at hj
  | cons k ks ih =>
    intro n j hj hmj
    unfold rawRanks
    cases j with
    | zero =>
      simp only [List.getD_cons_zero] at hmj ⊢
      rw [if_pos hmj]
      exact List.mem_cons_self _ _
    | succ j =>
      have hj' : j < ks.length := by simpa using hj
      have hmj' : fuzzyMatchFold q (ks.getD j []) = true := by
        simpa using hmj
      have hmem := ih (n + 1) j hj' hmj'
      have hidx : n + (j + 1) = (n + 1) + j := by omega
      rw [List.getD_cons_succ, hidx]
      by_cases hm : fuzzyMatchFold q k = true
      · rw [if_pos hm]
        exact List.mem_cons_of_mem _ hmem
      · rw [if_neg hm]
        exact hmem

theorem rawRanks_idx_increasing {q : GoStr} :
    ∀ (keys : List GoStr) (n : Nat),
      (rawRanks q keys n).Pairwise
        (fun a b => a.originalIndex < b.originalIndex) := by
  intro keys
  induction keys with
  | nil =>
    intro n
    simp [rawRanks]
  | cons k ks ih =>
    intro n
    unfold rawRanks
    by_cases hm : fuzzyMatchFold q k = true
    · rw [if_pos hm]
      refine List.Pairwise.cons ?_ (ih (n + 1))
      intro r hr
      have := (rawRanks_elem ks (n + 1) r hr).1
      simp only
      omega
    · rw [if_neg hm]
      exact ih (n + 1)

theorem getD_map_searchKey (entries : List Row) (i : Nat) (h : i < entries.length) :
    (entries.map (fun r => r.searchKey)).getD i [] =
      (entries.getD i default).searchKey := by
  have hlen : i < (entries.map (fun r => r.searchKey)).length := by
    simpa using h
  rw [List.getD_eq_getElem _ _ hlen, List.getD_eq_getElem _ _ h, List.getElem_map]

/-- The match distance the ranked branch attaches to row `i`. -/
def distOf (q : GoStr) (entries : List Row) (i : Nat) : Nat :=
  levDist (toLowerStr q) (toLowerStr ((entries.getD i default).searchKey))

/-- The claim's row order on indices (reflexive form): ascending match
distance, ties by descending `UpdatedAt`, remaining ties by ascending
`ID`. -/
def idxLe (q : GoStr) (entries : List Row) (i j : Nat) : Prop :=
  rankLe entries ⟨distOf q entries i, i⟩ ⟨distOf q entries j, j⟩ = true

/-- The strict form of `idxLe`. -/
def idxLt (q : GoStr) (entries : List Row) (i j : Nat) : Prop :=
  rankLess entries ⟨distOf q entries i, i⟩ ⟨distOf q entries j, j⟩ = true

/-- **C6** (confirmed).  An empty post-trim query yields all indices in
original order.  A non-empty query yields exactly the indices whose
search key fuzzy-matches the query; the output is ordered by ascending
match distance with ties broken by descending `UpdatedAt` then ascending
`ID` (`idxLe` pairwise), and when the session IDs are distinct the order
is strict (`idxLt` pairwise), i.e. a deterministic total order. -/
theorem c6_rank_order (query : GoStr) (entries : List Row) :
    (trimStr query = [] →
        computeFiltered query entries = List.range entries.length) ∧
      (trimStr query ≠ [] →
        (∀ i, i ∈ computeFiltered query entries ↔
            (i < entries.length ∧
              fuzzyMatchFold (trimStr query)
                ((entries.getD i default).searchKey) = true)) ∧
          (computeFiltered query entries).Pairwise
            (idxLe (trimStr query) entries) ∧
          ((entries.map (fun r => r.session.ID)).Nodup →
            (computeFiltered query entries).Pairwise
              (idxLt (trimStr query) entries))) := by
  constructor
  · intro hq
    unfold computeFiltered
    dsimp only
    rw [if_pos hq]
  · intro hq
    have hcf : computeFiltered query entries =
        computeRanked (trimStr query) entries := by
      unfold computeFiltered
      dsimp only
      rw [if_neg hq]
    haveI : IsTotal Rank (fun a b => rankLe entries a b = true) :=
      ⟨rankLe_total entries⟩
    haveI : IsTrans Rank (fun a b => rankLe entries a b = true) :=
      ⟨fun _ _ _ => rankLe_trans⟩
    have hperm : (List.insertionSort (fun a b => rankLe entries a b = true)
        (rawRanks (trimStr query) (entries.map (fun r => r.searchKey)) 0)).Perm
        (rawRanks (trimStr query) (entries.map (fun r => r.searchKey)) 0) :=
      List.perm_insertionSort _ _
    have hsort : (List.insertionSort (fun a b => rankLe entries a b = true)
        (rawRanks (trimStr query) (entries.map (fun r => r.searchKey)) 0)).Pairwise
        (fun a b => rankLe entries a b = true) :=
      List.sorted_insertionSort _ _
    have hkeyslen : (entries.map (fun r => r.searchKey)).length = entries.length := by
      simp
    have helem : ∀ r ∈ List.insertionSort (fun a b => rankLe entries a b = true)
        (rawRanks (trimStr query) (entries.map (fun r => r.searchKey)) 0),
        r.originalIndex < entries.length ∧
          fuzzyMatchFold (trimStr query)
            ((entries.getD r.originalIndex default).searchKey) = true ∧
          r.distance = distOf (trimStr query) entries r.originalIndex := by
      intro r hr
      have hr' := hperm.mem_iff.mp hr
      have h0 := rawRanks_elem (entries.map (fun r => r.searchKey)) 0 r hr'
      rw [Nat.sub_zero] at h0
      have hlt : r.originalIndex < entries.length := by
        have := h0.2.1
        omega
      refine ⟨hlt, ?_, ?_⟩
      · have := h0.2.2.1
        rwa [getD_map_searchKey entries r.originalIndex hlt] at this
      · have := h0.2.2.2
        rw [getD_map_searchKey entries r.originalIndex hlt] at this
        exact this
    have hrw : computeRanked (trimStr query) entries =
        (List.insertionSort (fun a b => rankLe entries a b = true)
          (rawRanks (trimStr query) (entries.map (fun r => r.searchKey)) 0)).map
          (fun r => r.originalIndex) := rfl
    refine ⟨?_, ?_, ?_⟩
    · intro i
      rw [hcf, hrw]
      constructor
      · intro hi
        rcases List.mem_map.mp hi with ⟨r, hrmem, hre⟩
        have := helem r hrmem
        rw [hre] at this
        exact ⟨this.1, this.2.1⟩
      · rintro ⟨hi, hmatch⟩
        have hmatch' : fuzzyMatchFold (trimStr query)
            ((entries.map (fun r => r.searchKey)).getD i []) = true := by
          rwa [getD_map_searchKey entries i hi]
        have hmem := rawRanks_complete (entries.map (fun r => r.searchKey)) 0 i
          (by omega) hmatch'
        refine List.mem_map.mpr ⟨_, hperm.mem_iff.mpr hmem, ?_⟩
        simp
    · rw [hcf, hrw]
      refine List.pairwise_map.mpr ?_
      refine hsort.imp_of_mem ?_
      intro a b ha hb hab
      have hea := (helem a ha).2.2
      have heb := (helem b hb).2.2
      unfold idxLe
      rw [← hea, ← heb]
      exact hab
    · intro hids
      have hidne : ∀ i j, i < entries.length → j < entries.length → i ≠ j →
          (entries.getD i default).session.ID ≠
            (entries.getD j default).session.ID := by
        intro i j hi hj hij heq
        apply hij
        have hi' : i < (entries.map (fun r => r.session.ID)).length := by simpa using hi
        have hj' : j < (entries.map (fun r => r.session.ID)).length := by simpa using hj
        refine (@List.Nodup.getElem_inj_iff GoStr _ hids i hi' j hj').mp ?_
        rw [List.getElem_map, List.getElem_map]
        rw [List.getD_eq_getElem entries default hi,
          List.getD_eq_getElem entries default hj] at heq
        exact heq
      have hrawlt := rawRanks_idx_increasing
        (q := trimStr query) (entries.map (fun r => r.searchKey)) 0
      have hrawne : (rawRanks (trimStr query)
          (entries.map (fun r => r.searchKey)) 0).Pairwise
          (fun a b => a.originalIndex ≠ b.originalIndex) :=
        hrawlt.imp (fun h => Nat.ne_of_lt h)
      have hne : (List.insertionSort (fun a b => rankLe entries a b = true)
          (rawRanks (trimStr query) (entries.map (fun r => r.searchKey)) 0)).Pairwise
          (fun a b => a.originalIndex ≠ b.originalIndex) :=
        (hperm.pairwise_iff (fun hab => hab.symm)).mpr hrawne
      rw [hcf, hrw]
      refine List.pairwise_map.mpr ?_
      refine (hsort.and hne).imp_of_mem ?_
      intro a b ha hb hab
      have hea := (helem a ha)
      have heb := (helem b hb)
      unfold idxLt
      rw [← hea.2.2, ← heb.2.2]
      have hble : rankLess entries b a = false := by
        have := hab.1
        unfold rankLe at this
        cases hh : rankLess entries b a
        · rfl
        · rw [hh] at this
          exact Bool.noConfusion this
      cases hh : rankLess entries a b
      · exfalso
        rw [rankLess_eq_lexLess] at hh hble
        have htie := lexLess_tie hh hble
        exact hidne a.originalIndex b.originalIndex hea.1 heb.1 hab.2
          htie.2.2
      · rfl

/-- Concrete rows for the `c6_rank_order` witness. -/
def c6Rows : List Row :=
  [⟨⟨strLit "s1", 1, 2, [], [], []⟩, strLit "abc"⟩,
    ⟨⟨strLit "s2", 1, 3, [], [], []⟩, strLit "xyz"⟩]

/-- Witness for `c6_rank_order`: the empty query returns both indices in
order, and index 0 survives the query "b" exactly because its key
matches. -/
theorem c6_rank_order_witness :
    computeFiltered [] c6Rows = List.range c6Rows.length ∧
      (0 ∈ computeFiltered (strLit "b") c6Rows ↔
        (0 < c6Rows.length ∧
          fuzzyMatchFold (trimStr (strLit "b"))
            ((c6Rows.getD 0 default).searchKey) = true)) :=
  ⟨(c6_rank_order [] c6Rows).1 rfl,
    ((c6_rank_order (strLit "b") c6Rows).2 (by decide)).1 0⟩

/-- Witness for `c5_cursor_invariant` on a concrete one-row model. -/
theorem c5_cursor_invariant_witness :
    cursorInv (appendChar 'x'
        ⟨[⟨⟨strLit "s", 1, 2, [], [], []⟩, strLit "s x"⟩], [0], 0, 10, [], []⟩) ∧
      cursorInv (moveSelectionBy 7
        ⟨[⟨⟨strLit "s", 1, 2, [], [], []⟩, strLit "s x"⟩], [0], 0, 10, [], []⟩) :=
  ⟨(c5_cursor_invariant
      ⟨[⟨⟨strLit "s", 1, 2, [], [], []⟩, strLit "s x"⟩], [0], 0, 10, [], []⟩
      (by decide)).1 'x',
    (c5_cursor_invariant
      ⟨[⟨⟨strLit "s", 1, 2, [], [], []⟩, strLit "s x"⟩], [0], 0, 10, [], []⟩
      (by decide)).2.2.2.1 7⟩

/-- Witness for `c9_delete_behavior`: a two-row model deleting the
selected (second) row. -/
theorem c9_delete_behavior_witness :
    deleteSelected (some (strLit "boom"))
        ⟨[⟨⟨strLit "s1", 1, 2, [], [], []⟩, strLit "k1"⟩,
           ⟨⟨strLit "s2", 1, 3, [], [], []⟩, strLit "k2"⟩], [0, 1], 1, 10, [], []⟩ =
      ⟨[⟨⟨strLit "s1", 1, 2, [], [], []⟩, strLit "k1"⟩,
         ⟨⟨strLit "s2", 1, 3, [], [], []⟩, strLit "k2"⟩], [0, 1], 1, 10, [],
        strLit "Delete failed: boom"⟩ ∧
      (deleteSelected none
          ⟨[⟨⟨strLit "s1", 1, 2, [], [], []⟩, strLit "k1"⟩,
             ⟨⟨strLit "s2", 1, 3, [], [], []⟩, strLit "k2"⟩],
            [0, 1], 1, 10, [], []⟩).entries.length + 1 = 2 := by
  refine ⟨?_, ?_⟩
  · exact (c9_delete_behavior
      ⟨[⟨⟨strLit "s1", 1, 2, [], [], []⟩, strLit "k1"⟩,
         ⟨⟨strLit "s2", 1, 3, [], [], []⟩, strLit "k2"⟩],
        [0, 1], 1, 10, [], []⟩).2.1 (strLit "boom") (by decide)
  · exact ((c9_delete_behavior
      ⟨[⟨⟨strLit "s1", 1, 2, [], [], []⟩, strLit "k1"⟩,
         ⟨⟨strLit "s2", 1, 3, [], [], []⟩, strLit "k2"⟩],
        [0, 1], 1, 10, [], []⟩).2.2 (by decide) (by decide)
      (by decide)).2.1
